import Mathlib

/-!
# Verification of the cabinet-isolation reachability and pruning scripts

Shallow embedding of the core algorithms of the repository:

* `parse_utils.find_matching_brace` — the delimiter-balancing scanner that
  skips string literals (plain, backslash-escaped and entity-encoded quotes)
  and line/block comments;
* `clean_commented_refs.classify_refs_in_file` — the line-based
  active/commented reference classifier;
* `clean_commented_refs.find_comment_orphans` — the uncapped fixpoint
  closure over active references and its orphan classification;
* `cleanup_orphans.collect_referenced_files` — the capped (50 iterations)
  fixpoint closure;
* the pruning executors of `cleanup_orphans.main`,
  `clean_commented_refs.main` and `isolation/cleanup_classes.main`
  (`remove_commented_lines`, `clean_commented_block`,
  `remove_unused_class_blocks`).

Texts are modelled as `List Char` (obtained from `String.data` of the file
contents); documents are association lists from relative path to text.
-/

set_option autoImplicit false

namespace CabinetIsolation

/-! ### Character-list utilities shared by the embeddings -/

/-- The characters Python regards as whitespace for `str.strip` and the
regex class interpreted by this development (ASCII subset). -/
def pySpace (c : Char) : Bool :=
  c = ' ' || c = '\t' || c = '\n' || c = '\x0d' || c = '\x0c' || c = '\x0b'

/-- Python word character (the regex class of letters, digits and underscore,
ASCII subset as used by the repository's identifiers). -/
def wordChar (c : Char) : Bool :=
  (('a' ≤ c && c ≤ 'z') || ('A' ≤ c && c ≤ 'Z') || ('0' ≤ c && c ≤ '9') || c = '_')

/-- Does `pat` occur starting exactly at the head of `l`? -/
def headMatches (pat l : List Char) : Bool :=
  match pat, l with
  | [], _ => true
  | _ :: _, [] => false
  | p :: ps, c :: cs => p = c && headMatches ps cs

/-- First index at which `pat` occurs in `l`, if any (Python `str.find`,
with `None` standing for the `-1` result). -/
def findSub (pat : List Char) : List Char → Option Nat
  | [] => if headMatches pat [] then some 0 else none
  | c :: cs =>
    if headMatches pat (c :: cs) then some 0
    else (findSub pat cs).map (· + 1)

/-- Python `pat in s` substring test. -/
def hasSub (pat l : List Char) : Bool := (findSub pat l).isSome

/-- Python `str.lstrip()` on our character lists. -/
def lstripL (l : List Char) : List Char := l.dropWhile pySpace

/-- Python `str.rstrip()` on our character lists. -/
def rstripL (l : List Char) : List Char := (l.reverse.dropWhile pySpace).reverse

/-- Python `str.strip()` on our character lists. -/
def stripL (l : List Char) : List Char := rstripL (lstripL l)

end CabinetIsolation


namespace CabinetIsolation

/-! ### `parse_utils.find_matching_brace`

The Python function scans left to right from `open_pos`, keeping a brace
depth counter and skipping line comments, block comments and the three
string dialects.  Each inner `while` loop of the Python body advances the
cursor by an offset that depends only on the text after the cursor, so it
is embedded as a structural function over that suffix; the main loop,
whose cursor strictly increases at every iteration, is embedded with a
fuel bound of `length + 1`, which the Python loop can never exhaust. -/

/-- Offset consumed by `while i < length and text[i] != '\n': i += 1`:
distance from the cursor to the first newline at or after it (or to the
end of the text). -/
def nlOffset : List Char → Nat
  | [] => 0
  | c :: cs => if c = '\n' then 0 else nlOffset cs + 1

/-- The line-comment branch: index where the scan resumes. -/
def findNewline (t : List Char) (i : Nat) : Nat := i + nlOffset (t.drop i)

/-- Offset consumed, after the initial `i += 2`, by
`while i + 1 < length: if text[i] == '*' and text[i+1] == '/': i += 2; break
else i += 1` of the block-comment branch. -/
def sbcOffset : List Char → Nat
  | [] => 0
  | [_] => 0
  | c :: c2 :: cs =>
    if c = '*' ∧ c2 = '/' then 2 else sbcOffset (c2 :: cs) + 1

/-- The block-comment branch: `i += 2` then the scan for the closer. -/
def skipBlockComment (t : List Char) (i : Nat) : Nat :=
  i + 2 + sbcOffset (t.drop (i + 2))

/-- Offset consumed, after the initial `i += 2`, by
`while i < length: if text[i] == '\\' and i + 1 < length and
text[i+1] == '"': i += 2; break else i += 1` of the backslash-quote
branch. -/
def sbsOffset : List Char → Nat
  | [] => 0
  | c :: cs =>
    if c = '\\' ∧ cs.head? = some '"' then 2 else sbsOffset cs + 1

/-- The backslash-escaped string skip: `i += 2` then the scan for the
closing `\"`. -/
def skipBackslashString (t : List Char) (i : Nat) : Nat :=
  i + 2 + sbsOffset (t.drop (i + 2))

/-- The test `text[i:i+6] == '&quot;'` of the Python source, on the suffix
starting at the cursor. -/
def entityHead (l : List Char) : Bool :=
  headMatches ('&' :: 'q' :: 'u' :: 'o' :: 't' :: ';' :: []) l

/-- Offset consumed, after the initial `i += 6`, by
`while i < length: if text[i:i+6] == '&quot;': i += 6; break else i += 1`
of the entity-quote branch. -/
def seOffset : List Char → Nat
  | [] => 0
  | c :: cs => if entityHead (c :: cs) then 6 else seOffset cs + 1

/-- The `&quot;` string skip: `i += 6` then the scan for the closing
`&quot;`. -/
def skipEntityString (t : List Char) (i : Nat) : Nat :=
  i + 6 + seOffset (t.drop (i + 6))

/-- Offset consumed, after the initial `i += 1`, by
`while i < length: if text[i] == '\\': i += 2; continue;
if text[i] == '"': break; i += 1` of the plain-quote branch (the loop
stops on the closing quote itself). -/
def spOffset : List Char → Nat
  | [] => 0
  | [c] => if c = '\\' then 2 else if c = '"' then 0 else 1
  | c :: c2 :: cs =>
    if c = '\\' then spOffset cs + 2
    else if c = '"' then 0
    else spOffset (c2 :: cs) + 1

/-- The plain-quoted string skip: `i += 1`, the inner scan, then the
unconditional `i += 1` after the loop in the source. -/
def skipPlainString (t : List Char) (i : Nat) : Nat :=
  i + 1 + spOffset (t.drop (i + 1)) + 1

/-- Main loop of `find_matching_brace`, one step per cursor position in
code state, faithful to the branch order of the Python source.  `fuel`
only bounds the number of iterations; since the cursor strictly increases
at every step, `t.length + 1` iterations are never exhausted. -/
def fmbGo : Nat → List Char → Nat → Int → Int
  | 0, _, _, _ => -1
  | fuel + 1, t, i, depth =>
    match t[i]? with
    | none => -1
    | some c =>
      if c = '/' ∧ t[i + 1]? = some '/' then
        fmbGo fuel t (findNewline t i) depth
      else if c = '/' ∧ t[i + 1]? = some '*' then
        fmbGo fuel t (skipBlockComment t i) depth
      else if c = '\\' ∧ t[i + 1]? = some '"' then
        fmbGo fuel t (skipBackslashString t i) depth
      else if entityHead (t.drop i) then
        fmbGo fuel t (skipEntityString t i) depth
      else if c = '"' then
        fmbGo fuel t (skipPlainString t i) depth
      else if c = '{' then
        fmbGo fuel t (i + 1) (depth + 1)
      else if c = '}' then
        (if depth - 1 = 0 then (i : Int) else fmbGo fuel t (i + 1) (depth - 1))
      else
        fmbGo fuel t (i + 1) depth

/-- `parse_utils.find_matching_brace(text, open_pos)`: finds the closing
`}` for the `{` at `open_pos`, skipping the contents of string literals
(`"…"`, `\"…\"`, `&quot;…&quot;`) and comments (`//` and `/* */`).
Returns `-1` when no match is found before the end of the document. -/
def find_matching_brace (t : List Char) (openPos : Nat) : Int :=
  fmbGo (t.length + 1) t openPos 0

end CabinetIsolation

namespace CabinetIsolation

/-- Character list of a string literal (texts in this development are the
`String.data` of the file contents). -/
def strL (s : String) : List Char := s.data

/-! ### Safety of the brace matcher (claim C9) -/

theorem fmbGo_spec : ∀ (fuel : Nat) (t : List Char) (i : Nat) (d : Int),
    fmbGo fuel t i d = -1 ∨
      ∃ r : Nat, fmbGo fuel t i d = (r : Int) ∧ i ≤ r ∧ r < t.length ∧
        t[r]? = some '}' := by
  intro fuel
  induction fuel with
  | zero => intro t i d; exact Or.inl rfl
  | succ fuel ih =>
    intro t i d
    have key : ∀ (j : Nat) (d' : Int), i ≤ j →
        fmbGo fuel t j d' = -1 ∨
          ∃ r : Nat, fmbGo fuel t j d' = (r : Int) ∧ i ≤ r ∧ r < t.length ∧
            t[r]? = some '}' := by
      intro j d' hj
      rcases ih t j d' with h | ⟨r, h1, h2, h3, h4⟩
      · exact Or.inl h
      · exact Or.inr ⟨r, h1, le_trans hj h2, h3, h4⟩
    rcases hci : t[i]? with _ | c
    · left
      simp [fmbGo, hci]
    · have hlen : i < t.length := (List.getElem?_eq_some.mp hci).1
      simp only [fmbGo, hci]
      split
      · exact key _ _ (Nat.le_add_right i _)
      · split
        · exact key _ _ (by unfold skipBlockComment; omega)
        · split
          · exact key _ _ (by unfold skipBackslashString; omega)
          · split
            · exact key _ _ (by unfold skipEntityString; omega)
            · split
              · exact key _ _ (by unfold skipPlainString; omega)
              · split
                · exact key _ _ (Nat.le_succ i)
                · split
                  · split
                    · right
                      refine ⟨i, rfl, le_refl i, hlen, ?_⟩
                      rename_i hbrace _
                      rw [hci, hbrace]
                    · exact key _ _ (Nat.le_succ i)
                  · exact key _ _ (Nat.le_succ i)

end CabinetIsolation

namespace CabinetIsolation

/-! ### The brace matcher reads only the suffix after its cursor -/

theorem fmbGo_congr : ∀ (fuel : Nat) (t1 t2 : List Char) (i : Nat) (d : Int),
    t1.length = t2.length → t1.drop i = t2.drop i →
    fmbGo fuel t1 i d = fmbGo fuel t2 i d := by
  intro fuel
  induction fuel with
  | zero => intro t1 t2 i d _ _; rfl
  | succ fuel ih =>
    intro t1 t2 i d hlen hdrop
    have hdropk : ∀ j : Nat, i ≤ j → t1.drop j = t2.drop j := by
      intro j hj
      obtain ⟨k, hk⟩ := Nat.le.dest hj
      have h := congrArg (List.drop k) hdrop
      rw [List.drop_drop, List.drop_drop] at h
      rw [← hk]
      exact h
    have hget : ∀ k : Nat, t1[i + k]? = t2[i + k]? := by
      intro k
      rw [← List.getElem?_drop, ← List.getElem?_drop, hdrop]
    have hget0 : t1[i]? = t2[i]? := by
      have := hget 0
      simpa using this
    have hrec : ∀ (j : Nat) (d' : Int), i ≤ j →
        fmbGo fuel t1 j d' = fmbGo fuel t2 j d' :=
      fun j d' hj => ih t1 t2 j d' hlen (hdropk j hj)
    have hnl : findNewline t1 i = findNewline t2 i := by
      unfold findNewline
      rw [hdrop]
    have hsbc : skipBlockComment t1 i = skipBlockComment t2 i := by
      unfold skipBlockComment
      rw [hdropk (i + 2) (by omega)]
    have hsbs : skipBackslashString t1 i = skipBackslashString t2 i := by
      unfold skipBackslashString
      rw [hdropk (i + 2) (by omega)]
    have hse : skipEntityString t1 i = skipEntityString t2 i := by
      unfold skipEntityString
      rw [hdropk (i + 6) (by omega)]
    have hsp : skipPlainString t1 i = skipPlainString t2 i := by
      unfold skipPlainString
      rw [hdropk (i + 1) (by omega)]
    have hnlge : i ≤ findNewline t2 i := by
      rw [← hnl]
      exact Nat.le_add_right _ _
    have hsbcge : i ≤ skipBlockComment t2 i := by
      unfold skipBlockComment
      omega
    have hsbsge : i ≤ skipBackslashString t2 i := by
      unfold skipBackslashString
      omega
    have hsege : i ≤ skipEntityString t2 i := by
      unfold skipEntityString
      omega
    have hspge : i ≤ skipPlainString t2 i := by
      unfold skipPlainString
      omega
    simp only [fmbGo, hget0, hget 1, hdrop, hnl, hsbc, hsbs, hse, hsp]
    split
    · rfl
    · split
      · exact hrec _ _ hnlge
      · split
        · exact hrec _ _ hsbcge
        · split
          · exact hrec _ _ hsbsge
          · split
            · exact hrec _ _ hsege
            · split
              · exact hrec _ _ hspge
              · split
                · exact hrec _ _ (Nat.le_succ i)
                · split
                  · split
                    · rfl
                    · exact hrec _ _ (Nat.le_succ i)
                  · exact hrec _ _ (Nat.le_succ i)

end CabinetIsolation

namespace CabinetIsolation

/-! ### The inner skips consume exactly the literal they scan -/

theorem nlOffset_append {c : List Char} (s : List Char) (h : '\n' ∉ c) :
    nlOffset (c ++ '\n' :: s) = c.length := by
  induction c with
  | nil => simp [nlOffset]
  | cons a c ih =>
    have ha : a ≠ '\n' := fun hn => h (hn ▸ List.mem_cons_self a c)
    show nlOffset (a :: (c ++ '\n' :: s)) = c.length + 1
    simp only [nlOffset, if_neg ha]
    rw [ih (fun hm => h (List.mem_cons_of_mem a hm))]

theorem spOffset_append {c : List Char} (s : List Char)
    (hq : '"' ∉ c) (hb : '\\' ∉ c) :
    spOffset (c ++ '"' :: s) = c.length := by
  induction c with
  | nil =>
    cases s with
    | nil => simp [spOffset]
    | cons b bs => simp [spOffset]
  | cons a c ih =>
    have haq : a ≠ '"' := fun hn => hq (hn ▸ List.mem_cons_self a c)
    have hab : a ≠ '\\' := fun hn => hb (hn ▸ List.mem_cons_self a c)
    have hne : c ++ '"' :: s ≠ [] := by simp
    rcases hx : c ++ '"' :: s with _ | ⟨b, bs⟩
    · exact absurd hx hne
    · show spOffset (a :: (c ++ '"' :: s)) = c.length + 1
      rw [hx]
      simp only [spOffset, if_neg hab, if_neg haq]
      rw [← hx, ih (fun hm => hq (List.mem_cons_of_mem a hm))
        (fun hm => hb (List.mem_cons_of_mem a hm))]

theorem sbsOffset_append {c : List Char} (s : List Char) (hb : '\\' ∉ c) :
    sbsOffset (c ++ '\\' :: '"' :: s) = c.length + 2 := by
  induction c with
  | nil => simp [sbsOffset]
  | cons a c ih =>
    have hab : a ≠ '\\' := fun hn => hb (hn ▸ List.mem_cons_self a c)
    show sbsOffset (a :: (c ++ '\\' :: '"' :: s)) = c.length + 1 + 2
    simp only [sbsOffset]
    rw [if_neg (fun hand => hab hand.1),
      ih (fun hm => hb (List.mem_cons_of_mem a hm))]

theorem seOffset_append {c : List Char} (s : List Char) (ha : '&' ∉ c) :
    seOffset (c ++ '&' :: 'q' :: 'u' :: 'o' :: 't' :: ';' :: s) =
      c.length + 6 := by
  induction c with
  | nil => simp [seOffset, entityHead, headMatches]
  | cons a c ih =>
    have haa : ¬('&' = a) := fun hn => ha (hn ▸ List.mem_cons_self a c)
    have hent : entityHead (a :: (c ++ '&' :: 'q' :: 'u' :: 'o' :: 't' :: ';' :: s)) = false := by
      simp [entityHead, headMatches, haa]
    show seOffset (a :: (c ++ '&' :: 'q' :: 'u' :: 'o' :: 't' :: ';' :: s)) = c.length + 1 + 6
    simp only [seOffset, hent, Bool.false_eq_true, if_false]
    rw [ih (fun hm => ha (List.mem_cons_of_mem a hm))]

theorem sbcOffset_append {c : List Char} (s : List Char) (hs : '*' ∉ c) :
    sbcOffset (c ++ '*' :: '/' :: s) = c.length + 2 := by
  induction c with
  | nil => simp [sbcOffset]
  | cons a c ih =>
    have has : a ≠ '*' := fun hn => hs (hn ▸ List.mem_cons_self a c)
    have hne : c ++ '*' :: '/' :: s ≠ [] := by simp
    rcases hx : c ++ '*' :: '/' :: s with _ | ⟨b, bs⟩
    · exact absurd hx hne
    · show sbcOffset (a :: (c ++ '*' :: '/' :: s)) = c.length + 1 + 2
      rw [hx]
      simp only [sbcOffset]
      rw [if_neg (fun hand => has hand.1), ← hx,
        ih (fun hm => hs (List.mem_cons_of_mem a hm))]

/-- With no closer present, the block-comment scan of the source stops at
the second-to-last position (`while i + 1 < length`), leaving the final
character to be processed as code again. -/
theorem sbcOffset_noClose {c : List Char} (hs : '*' ∉ c) :
    sbcOffset c = c.length - 1 := by
  induction c with
  | nil => simp [sbcOffset]
  | cons a c ih =>
    have has : a ≠ '*' := fun hn => hs (hn ▸ List.mem_cons_self a c)
    cases c with
    | nil => simp [sbcOffset]
    | cons b bs =>
      simp only [sbcOffset]
      rw [if_neg (fun hand => has hand.1),
        ih (fun hm => hs (List.mem_cons_of_mem a hm))]
      simp

end CabinetIsolation

namespace CabinetIsolation

/-! ### Scanner steps on shaped texts -/

theorem fmbGo_open (fuel : Nat) (rest : List Char) (d : Int) :
    fmbGo (fuel + 1) ('{' :: rest) 0 d = fmbGo fuel ('{' :: rest) 1 (d + 1) := by
  simp [fmbGo, entityHead, headMatches]

theorem fmbGo_plainStep (fuel : Nat) (x : List Char) (d : Int) :
    fmbGo (fuel + 1) ('{' :: '"' :: x) 1 d
      = fmbGo fuel ('{' :: '"' :: x) (skipPlainString ('{' :: '"' :: x) 1) d := by
  simp [fmbGo, entityHead, headMatches]

theorem fmbGo_lineStep (fuel : Nat) (x : List Char) (d : Int) :
    fmbGo (fuel + 1) ('{' :: '/' :: '/' :: x) 1 d
      = fmbGo fuel ('{' :: '/' :: '/' :: x)
          (findNewline ('{' :: '/' :: '/' :: x) 1) d := by
  simp [fmbGo, entityHead, headMatches]

theorem fmbGo_blockStep (fuel : Nat) (x : List Char) (d : Int) :
    fmbGo (fuel + 1) ('{' :: '/' :: '*' :: x) 1 d
      = fmbGo fuel ('{' :: '/' :: '*' :: x)
          (skipBlockComment ('{' :: '/' :: '*' :: x) 1) d := by
  simp [fmbGo, entityHead, headMatches]

theorem fmbGo_backslashStep (fuel : Nat) (x : List Char) (d : Int) :
    fmbGo (fuel + 1) ('{' :: '\\' :: '"' :: x) 1 d
      = fmbGo fuel ('{' :: '\\' :: '"' :: x)
          (skipBackslashString ('{' :: '\\' :: '"' :: x) 1) d := by
  simp [fmbGo, entityHead, headMatches]

theorem fmbGo_entityStep (fuel : Nat) (x : List Char) (d : Int) :
    fmbGo (fuel + 1) ('{' :: '&' :: 'q' :: 'u' :: 'o' :: 't' :: ';' :: x) 1 d
      = fmbGo fuel ('{' :: '&' :: 'q' :: 'u' :: 'o' :: 't' :: ';' :: x)
          (skipEntityString ('{' :: '&' :: 'q' :: 'u' :: 'o' :: 't' :: ';' :: x) 1) d := by
  simp [fmbGo, entityHead, headMatches]

/-! ### Dialect-wise content irrelevance of the match offset -/

/-- Replacing the interior of a plain double-quoted string literal by any
other closer-free content of the same length leaves the reported match
offset unchanged. -/
theorem fmb_plain_invariant (c1 c2 s : List Char)
    (hlen : c1.length = c2.length)
    (hq1 : '"' ∉ c1) (hb1 : '\\' ∉ c1) (hq2 : '"' ∉ c2) (hb2 : '\\' ∉ c2) :
    find_matching_brace ('{' :: '"' :: (c1 ++ '"' :: s)) 0
      = find_matching_brace ('{' :: '"' :: (c2 ++ '"' :: s)) 0 := by
  have hlt : ('{' :: '"' :: (c1 ++ '"' :: s)).length
      = ('{' :: '"' :: (c2 ++ '"' :: s)).length := by
    simp [hlen]
  unfold find_matching_brace
  rw [← hlt]
  have hL : ('{' :: '"' :: (c1 ++ '"' :: s)).length + 1
      = (c1.length + s.length + 2) + 2 := by
    simp [List.length_append]
    try omega
  rw [hL, fmbGo_open, fmbGo_plainStep, fmbGo_open, fmbGo_plainStep]
  have hs1 : skipPlainString ('{' :: '"' :: (c1 ++ '"' :: s)) 1
      = c1.length + 3 := by
    unfold skipPlainString
    rw [show ('{' :: '"' :: (c1 ++ '"' :: s)).drop 2 = c1 ++ '"' :: s from rfl,
      spOffset_append s hq1 hb1]
    omega
  have hs2 : skipPlainString ('{' :: '"' :: (c2 ++ '"' :: s)) 1
      = c1.length + 3 := by
    unfold skipPlainString
    rw [show ('{' :: '"' :: (c2 ++ '"' :: s)).drop 2 = c2 ++ '"' :: s from rfl,
      spOffset_append s hq2 hb2]
    omega
  rw [hs1, hs2]
  refine fmbGo_congr _ _ _ _ _ (by simp [hlen]) ?_
  have e1 : '{' :: '"' :: (c1 ++ '"' :: s)
      = ('{' :: '"' :: c1 ++ ('"' :: [])) ++ s := by simp
  have e2 : '{' :: '"' :: (c2 ++ '"' :: s)
      = ('{' :: '"' :: c2 ++ ('"' :: [])) ++ s := by simp
  rw [e1, e2, List.drop_left' (by simp), List.drop_left' (by simp [hlen])]

/-- Replacing the interior of a backslash-escaped string literal
(`\"…\"`) by any other backslash-free content of the same length leaves
the reported match offset unchanged. -/
theorem fmb_backslash_invariant (c1 c2 s : List Char)
    (hlen : c1.length = c2.length)
    (hb1 : '\\' ∉ c1) (hb2 : '\\' ∉ c2) :
    find_matching_brace ('{' :: '\\' :: '"' :: (c1 ++ '\\' :: '"' :: s)) 0
      = find_matching_brace ('{' :: '\\' :: '"' :: (c2 ++ '\\' :: '"' :: s)) 0 := by
  have hlt : ('{' :: '\\' :: '"' :: (c1 ++ '\\' :: '"' :: s)).length
      = ('{' :: '\\' :: '"' :: (c2 ++ '\\' :: '"' :: s)).length := by
    simp [hlen]
  unfold find_matching_brace
  rw [← hlt]
  have hL : ('{' :: '\\' :: '"' :: (c1 ++ '\\' :: '"' :: s)).length + 1
      = (c1.length + s.length + 4) + 2 := by
    simp [List.length_append]
    try omega
  rw [hL, fmbGo_open, fmbGo_backslashStep, fmbGo_open, fmbGo_backslashStep]
  have hs1 : skipBackslashString ('{' :: '\\' :: '"' :: (c1 ++ '\\' :: '"' :: s)) 1
      = c1.length + 5 := by
    unfold skipBackslashString
    rw [show ('{' :: '\\' :: '"' :: (c1 ++ '\\' :: '"' :: s)).drop 3
        = c1 ++ '\\' :: '"' :: s from rfl, sbsOffset_append s hb1]
    omega
  have hs2 : skipBackslashString ('{' :: '\\' :: '"' :: (c2 ++ '\\' :: '"' :: s)) 1
      = c1.length + 5 := by
    unfold skipBackslashString
    rw [show ('{' :: '\\' :: '"' :: (c2 ++ '\\' :: '"' :: s)).drop 3
        = c2 ++ '\\' :: '"' :: s from rfl, sbsOffset_append s hb2]
    omega
  rw [hs1, hs2]
  refine fmbGo_congr _ _ _ _ _ (by simp [hlen]) ?_
  have e1 : '{' :: '\\' :: '"' :: (c1 ++ '\\' :: '"' :: s)
      = ('{' :: '\\' :: '"' :: c1 ++ ('\\' :: '"' :: [])) ++ s := by simp
  have e2 : '{' :: '\\' :: '"' :: (c2 ++ '\\' :: '"' :: s)
      = ('{' :: '\\' :: '"' :: c2 ++ ('\\' :: '"' :: [])) ++ s := by simp
  rw [e1, e2, List.drop_left' (by simp), List.drop_left' (by simp [hlen])]

/-- Replacing the interior of an entity-quoted string literal
(`&quot;…&quot;`) by any other `&`-free content of the same length leaves
the reported match offset unchanged. -/
theorem fmb_entity_invariant (c1 c2 s : List Char)
    (hlen : c1.length = c2.length)
    (ha1 : '&' ∉ c1) (ha2 : '&' ∉ c2) :
    find_matching_brace
        ('{' :: '&' :: 'q' :: 'u' :: 'o' :: 't' :: ';'
          :: (c1 ++ '&' :: 'q' :: 'u' :: 'o' :: 't' :: ';' :: s)) 0
      = find_matching_brace
        ('{' :: '&' :: 'q' :: 'u' :: 'o' :: 't' :: ';'
          :: (c2 ++ '&' :: 'q' :: 'u' :: 'o' :: 't' :: ';' :: s)) 0 := by
  have hlt : ('{' :: '&' :: 'q' :: 'u' :: 'o' :: 't' :: ';'
        :: (c1 ++ '&' :: 'q' :: 'u' :: 'o' :: 't' :: ';' :: s)).length
      = ('{' :: '&' :: 'q' :: 'u' :: 'o' :: 't' :: ';'
        :: (c2 ++ '&' :: 'q' :: 'u' :: 'o' :: 't' :: ';' :: s)).length := by
    simp [hlen]
  unfold find_matching_brace
  rw [← hlt]
  have hL : ('{' :: '&' :: 'q' :: 'u' :: 'o' :: 't' :: ';'
        :: (c1 ++ '&' :: 'q' :: 'u' :: 'o' :: 't' :: ';' :: s)).length + 1
      = (c1.length + s.length + 12) + 2 := by
    simp [List.length_append]
    try omega
  rw [hL, fmbGo_open, fmbGo_entityStep, fmbGo_open, fmbGo_entityStep]
  have hs1 : skipEntityString ('{' :: '&' :: 'q' :: 'u' :: 'o' :: 't' :: ';'
        :: (c1 ++ '&' :: 'q' :: 'u' :: 'o' :: 't' :: ';' :: s)) 1
      = c1.length + 13 := by
    unfold skipEntityString
    rw [show ('{' :: '&' :: 'q' :: 'u' :: 'o' :: 't' :: ';'
        :: (c1 ++ '&' :: 'q' :: 'u' :: 'o' :: 't' :: ';' :: s)).drop 7
        = c1 ++ '&' :: 'q' :: 'u' :: 'o' :: 't' :: ';' :: s from rfl,
      seOffset_append s ha1]
    omega
  have hs2 : skipEntityString ('{' :: '&' :: 'q' :: 'u' :: 'o' :: 't' :: ';'
        :: (c2 ++ '&' :: 'q' :: 'u' :: 'o' :: 't' :: ';' :: s)) 1
      = c1.length + 13 := by
    unfold skipEntityString
    rw [show ('{' :: '&' :: 'q' :: 'u' :: 'o' :: 't' :: ';'
        :: (c2 ++ '&' :: 'q' :: 'u' :: 'o' :: 't' :: ';' :: s)).drop 7
        = c2 ++ '&' :: 'q' :: 'u' :: 'o' :: 't' :: ';' :: s from rfl,
      seOffset_append s ha2]
    omega
  rw [hs1, hs2]
  refine fmbGo_congr _ _ _ _ _ (by simp [hlen]) ?_
  have e1 : '{' :: '&' :: 'q' :: 'u' :: 'o' :: 't' :: ';'
        :: (c1 ++ '&' :: 'q' :: 'u' :: 'o' :: 't' :: ';' :: s)
      = ('{' :: '&' :: 'q' :: 'u' :: 'o' :: 't' :: ';' :: c1
          ++ ('&' :: 'q' :: 'u' :: 'o' :: 't' :: ';' :: [])) ++ s := by simp
  have e2 : '{' :: '&' :: 'q' :: 'u' :: 'o' :: 't' :: ';'
        :: (c2 ++ '&' :: 'q' :: 'u' :: 'o' :: 't' :: ';' :: s)
      = ('{' :: '&' :: 'q' :: 'u' :: 'o' :: 't' :: ';' :: c2
          ++ ('&' :: 'q' :: 'u' :: 'o' :: 't' :: ';' :: [])) ++ s := by simp
  rw [e1, e2, List.drop_left' (by simp), List.drop_left' (by simp [hlen])]

/-- Replacing the interior of a line comment by any other newline-free
content of the same length leaves the reported match offset unchanged. -/
theorem fmb_lineComment_invariant (c1 c2 s : List Char)
    (hlen : c1.length = c2.length)
    (hn1 : '\n' ∉ c1) (hn2 : '\n' ∉ c2) :
    find_matching_brace ('{' :: '/' :: '/' :: (c1 ++ '\n' :: s)) 0
      = find_matching_brace ('{' :: '/' :: '/' :: (c2 ++ '\n' :: s)) 0 := by
  have hlt : ('{' :: '/' :: '/' :: (c1 ++ '\n' :: s)).length
      = ('{' :: '/' :: '/' :: (c2 ++ '\n' :: s)).length := by
    simp [hlen]
  unfold find_matching_brace
  rw [← hlt]
  have hL : ('{' :: '/' :: '/' :: (c1 ++ '\n' :: s)).length + 1
      = (c1.length + s.length + 3) + 2 := by
    simp [List.length_append]
    try omega
  rw [hL, fmbGo_open, fmbGo_lineStep, fmbGo_open, fmbGo_lineStep]
  have hs1 : findNewline ('{' :: '/' :: '/' :: (c1 ++ '\n' :: s)) 1
      = c1.length + 3 := by
    unfold findNewline
    rw [show ('{' :: '/' :: '/' :: (c1 ++ '\n' :: s)).drop 1
        = '/' :: '/' :: (c1 ++ '\n' :: s) from rfl]
    show 1 + (nlOffset (c1 ++ '\n' :: s) + 1 + 1) = c1.length + 3
    rw [nlOffset_append s hn1]
    omega
  have hs2 : findNewline ('{' :: '/' :: '/' :: (c2 ++ '\n' :: s)) 1
      = c1.length + 3 := by
    unfold findNewline
    rw [show ('{' :: '/' :: '/' :: (c2 ++ '\n' :: s)).drop 1
        = '/' :: '/' :: (c2 ++ '\n' :: s) from rfl]
    show 1 + (nlOffset (c2 ++ '\n' :: s) + 1 + 1) = c1.length + 3
    rw [nlOffset_append s hn2]
    omega
  rw [hs1, hs2]
  refine fmbGo_congr _ _ _ _ _ (by simp [hlen]) ?_
  have e1 : '{' :: '/' :: '/' :: (c1 ++ '\n' :: s)
      = ('{' :: '/' :: '/' :: c1) ++ ('\n' :: s) := by simp
  have e2 : '{' :: '/' :: '/' :: (c2 ++ '\n' :: s)
      = ('{' :: '/' :: '/' :: c2) ++ ('\n' :: s) := by simp
  rw [e1, e2, List.drop_left' (by simp), List.drop_left' (by simp [hlen])]

/-- Replacing the interior of a closed block comment by any other
star-free content of the same length leaves the reported match offset
unchanged. -/
theorem fmb_blockComment_invariant (c1 c2 s : List Char)
    (hlen : c1.length = c2.length)
    (hs1 : '*' ∉ c1) (hs2 : '*' ∉ c2) :
    find_matching_brace ('{' :: '/' :: '*' :: (c1 ++ '*' :: '/' :: s)) 0
      = find_matching_brace ('{' :: '/' :: '*' :: (c2 ++ '*' :: '/' :: s)) 0 := by
  have hlt : ('{' :: '/' :: '*' :: (c1 ++ '*' :: '/' :: s)).length
      = ('{' :: '/' :: '*' :: (c2 ++ '*' :: '/' :: s)).length := by
    simp [hlen]
  unfold find_matching_brace
  rw [← hlt]
  have hL : ('{' :: '/' :: '*' :: (c1 ++ '*' :: '/' :: s)).length + 1
      = (c1.length + s.length + 4) + 2 := by
    simp [List.length_append]
    try omega
  rw [hL, fmbGo_open, fmbGo_blockStep, fmbGo_open, fmbGo_blockStep]
  have hb1 : skipBlockComment ('{' :: '/' :: '*' :: (c1 ++ '*' :: '/' :: s)) 1
      = c1.length + 5 := by
    unfold skipBlockComment
    rw [show ('{' :: '/' :: '*' :: (c1 ++ '*' :: '/' :: s)).drop 3
        = c1 ++ '*' :: '/' :: s from rfl, sbcOffset_append s hs1]
    omega
  have hb2 : skipBlockComment ('{' :: '/' :: '*' :: (c2 ++ '*' :: '/' :: s)) 1
      = c1.length + 5 := by
    unfold skipBlockComment
    rw [show ('{' :: '/' :: '*' :: (c2 ++ '*' :: '/' :: s)).drop 3
        = c2 ++ '*' :: '/' :: s from rfl, sbcOffset_append s hs2]
    omega
  rw [hb1, hb2]
  refine fmbGo_congr _ _ _ _ _ (by simp [hlen]) ?_
  have e1 : '{' :: '/' :: '*' :: (c1 ++ '*' :: '/' :: s)
      = ('{' :: '/' :: '*' :: c1 ++ ('*' :: '/' :: [])) ++ s := by simp
  have e2 : '{' :: '/' :: '*' :: (c2 ++ '*' :: '/' :: s)
      = ('{' :: '/' :: '*' :: c2 ++ ('*' :: '/' :: [])) ++ s := by simp
  rw [e1, e2, List.drop_left' (by simp), List.drop_left' (by simp [hlen])]

theorem drop_pred_eq_getLastOpt {α : Type} :
    ∀ l : List α, l.drop (l.length - 1) = l.getLast?.toList := by
  intro l
  induction l with
  | nil => rfl
  | cons a l ih =>
    cases l with
    | nil => rfl
    | cons b bs =>
      show (a :: b :: bs).drop (bs.length + 2 - 1) = _
      rw [show bs.length + 2 - 1 = (bs.length + 1 - 1) + 1 from by omega]
      rw [List.drop_succ_cons]
      rw [show bs.length + 1 - 1 = (b :: bs).length - 1 from by simp]
      rw [ih]
      rfl

/-- In an unclosed block comment the scanner ignores everything except
the very last character of the document: two star-free tails of the same
length and the same final character yield the same match offset. -/
theorem fmb_unclosedBlock_invariant (c1 c2 : List Char)
    (hlen : c1.length = c2.length)
    (hs1 : '*' ∉ c1) (hs2 : '*' ∉ c2)
    (hlast : c1.getLast? = c2.getLast?) :
    find_matching_brace ('{' :: '/' :: '*' :: c1) 0
      = find_matching_brace ('{' :: '/' :: '*' :: c2) 0 := by
  have hlt : ('{' :: '/' :: '*' :: c1).length
      = ('{' :: '/' :: '*' :: c2).length := by
    simp [hlen]
  unfold find_matching_brace
  rw [← hlt]
  have hL : ('{' :: '/' :: '*' :: c1).length + 1 = (c1.length + 2) + 2 := by
    simp
    try omega
  rw [hL, fmbGo_open, fmbGo_blockStep, fmbGo_open, fmbGo_blockStep]
  have hb1 : skipBlockComment ('{' :: '/' :: '*' :: c1) 1
      = 3 + (c1.length - 1) := by
    unfold skipBlockComment
    rw [show ('{' :: '/' :: '*' :: c1).drop 3 = c1 from rfl,
      sbcOffset_noClose hs1]
  have hb2 : skipBlockComment ('{' :: '/' :: '*' :: c2) 1
      = 3 + (c1.length - 1) := by
    unfold skipBlockComment
    rw [show ('{' :: '/' :: '*' :: c2).drop 3 = c2 from rfl,
      sbcOffset_noClose hs2, hlen]
  rw [hb1, hb2]
  refine fmbGo_congr _ _ _ _ _ (by simp [hlen]) ?_
  have hd : ∀ c : List Char,
      ('{' :: '/' :: '*' :: c).drop (3 + (c1.length - 1))
        = c.drop (c1.length - 1) := by
    intro c
    rw [Nat.add_comm 3]
    rfl
  rw [hd c1, hd c2, drop_pred_eq_getLastOpt, hlen,
    drop_pred_eq_getLastOpt, hlast]

end CabinetIsolation

namespace CabinetIsolation

/-- C9: for every text and every starting position holding an opening
brace, `find_matching_brace` terminates (it is a total function) and
returns either the sentinel `-1` — the unmatched-delimiter report, never
an exception or an out-of-bounds access — or an index `r` strictly
greater than the starting position, within bounds, whose character is
`'}'` (the position where the scanner's brace depth first returns to
zero). -/
theorem c9_find_matching_brace_safety (t : List Char) (p : Nat)
    (hp : t[p]? = some '{') :
    find_matching_brace t p = -1 ∨
      ∃ r : Nat, find_matching_brace t p = (r : Int) ∧ p < r ∧ r < t.length ∧
        t[r]? = some '}' := by
  have hdp : t.drop p = '{' :: t.drop (p + 1) := by
    have hlt : p < t.length := (List.getElem?_eq_some.mp hp).1
    rw [List.drop_eq_getElem_cons hlt]
    have : t[p] = '{' := by
      have := (List.getElem?_eq_some.mp hp).2
      exact this
    rw [this]
  have step : find_matching_brace t p = fmbGo t.length t (p + 1) 1 := by
    unfold find_matching_brace
    simp [fmbGo, hp, hdp, entityHead, headMatches]
  rw [step]
  rcases fmbGo_spec t.length t (p + 1) 1 with h | ⟨r, h1, h2, h3, h4⟩
  · exact Or.inl h
  · exact Or.inr ⟨r, h1, by omega, h3, h4⟩

/-- Witness for `c9_find_matching_brace_safety` at the concrete document
`{ a }` with a nested unmatched-free structure. -/
theorem c9_witness :
    (('{' :: 'a' :: '}' :: []) : List Char)[0]? = some '{' ∧
      (find_matching_brace ('{' :: 'a' :: '}' :: []) 0 = -1 ∨
        ∃ r : Nat, find_matching_brace ('{' :: 'a' :: '}' :: []) 0 = (r : Int) ∧
          0 < r ∧ r < ('{' :: 'a' :: '}' :: []).length ∧
          ('{' :: 'a' :: '}' :: [])[r]? = some '}') :=
  ⟨rfl, c9_find_matching_brace_safety ('{' :: 'a' :: '}' :: []) 0 rfl⟩

end CabinetIsolation

namespace CabinetIsolation

/-- C3 counterexample: in a block comment left unclosed at the document
end the remainder is NOT all comment — the scanner's inner loop stops one
character early (`while i + 1 < length`), so the final character of the
document is processed as code.  Replacing the last character of the
unclosed-comment remainder by `'}'` (an injection into the comment of the
same length) changes the reported match offset from `-1` to `4`. -/
theorem c3_counterexample :
    find_matching_brace ('{' :: '/' :: '*' :: 'a' :: 'b' :: []) 0 = -1 ∧
      find_matching_brace ('{' :: '/' :: '*' :: 'a' :: '}' :: []) 0 = 4 := by
  exact ⟨by decide, by decide⟩

/-- C3 (amended): the offset returned by the brace matcher depends only
on the characters outside string literals (all three quoting dialects)
and outside comments: replacing the interior of a plain-quoted,
backslash-escaped or entity-encoded string literal, of a line comment, or
of a closed block comment by any other closer-free content of the same
length — in particular injecting `'{'` or `'}'` there — leaves the
reported match offset unchanged.  For a block comment left unclosed at
document end this holds for every position except the last character of
the document, which the scanner processes as code again: the remainder
can be replaced freely as long as the final character is kept. -/
theorem c3_amended :
    (∀ c1 c2 s : List Char, c1.length = c2.length →
      '"' ∉ c1 → '\\' ∉ c1 → '"' ∉ c2 → '\\' ∉ c2 →
      find_matching_brace ('{' :: '"' :: (c1 ++ '"' :: s)) 0
        = find_matching_brace ('{' :: '"' :: (c2 ++ '"' :: s)) 0) ∧
    (∀ c1 c2 s : List Char, c1.length = c2.length →
      '\\' ∉ c1 → '\\' ∉ c2 →
      find_matching_brace ('{' :: '\\' :: '"' :: (c1 ++ '\\' :: '"' :: s)) 0
        = find_matching_brace ('{' :: '\\' :: '"' :: (c2 ++ '\\' :: '"' :: s)) 0) ∧
    (∀ c1 c2 s : List Char, c1.length = c2.length →
      '&' ∉ c1 → '&' ∉ c2 →
      find_matching_brace ('{' :: '&' :: 'q' :: 'u' :: 'o' :: 't' :: ';'
          :: (c1 ++ '&' :: 'q' :: 'u' :: 'o' :: 't' :: ';' :: s)) 0
        = find_matching_brace ('{' :: '&' :: 'q' :: 'u' :: 'o' :: 't' :: ';'
          :: (c2 ++ '&' :: 'q' :: 'u' :: 'o' :: 't' :: ';' :: s)) 0) ∧
    (∀ c1 c2 s : List Char, c1.length = c2.length →
      '\n' ∉ c1 → '\n' ∉ c2 →
      find_matching_brace ('{' :: '/' :: '/' :: (c1 ++ '\n' :: s)) 0
        = find_matching_brace ('{' :: '/' :: '/' :: (c2 ++ '\n' :: s)) 0) ∧
    (∀ c1 c2 s : List Char, c1.length = c2.length →
      '*' ∉ c1 → '*' ∉ c2 →
      find_matching_brace ('{' :: '/' :: '*' :: (c1 ++ '*' :: '/' :: s)) 0
        = find_matching_brace ('{' :: '/' :: '*' :: (c2 ++ '*' :: '/' :: s)) 0) ∧
    (∀ c1 c2 : List Char, c1.length = c2.length →
      '*' ∉ c1 → '*' ∉ c2 → c1.getLast? = c2.getLast? →
      find_matching_brace ('{' :: '/' :: '*' :: c1) 0
        = find_matching_brace ('{' :: '/' :: '*' :: c2) 0) :=
  ⟨fmb_plain_invariant, fmb_backslash_invariant, fmb_entity_invariant,
    fmb_lineComment_invariant, fmb_blockComment_invariant,
    fmb_unclosedBlock_invariant⟩

/-- Witness for `c3_amended`: braces injected into each dialect's string
form (and into the comments) leave the match offset unchanged on concrete
documents. -/
theorem c3_witness :
    (find_matching_brace ('{' :: '"' :: (('a' :: 'b' :: []) ++ '"' :: ('}' :: []))) 0
        = find_matching_brace ('{' :: '"' :: (('{' :: '}' :: []) ++ '"' :: ('}' :: []))) 0) ∧
    (find_matching_brace ('{' :: '\\' :: '"' :: (('a' :: 'b' :: []) ++ '\\' :: '"' :: ('}' :: []))) 0
        = find_matching_brace ('{' :: '\\' :: '"' :: (('{' :: '}' :: []) ++ '\\' :: '"' :: ('}' :: []))) 0) ∧
    (find_matching_brace ('{' :: '&' :: 'q' :: 'u' :: 'o' :: 't' :: ';'
          :: (('a' :: 'b' :: []) ++ '&' :: 'q' :: 'u' :: 'o' :: 't' :: ';' :: ('}' :: []))) 0
        = find_matching_brace ('{' :: '&' :: 'q' :: 'u' :: 'o' :: 't' :: ';'
          :: (('{' :: '}' :: []) ++ '&' :: 'q' :: 'u' :: 'o' :: 't' :: ';' :: ('}' :: []))) 0) ∧
    (find_matching_brace ('{' :: '/' :: '/' :: (('a' :: 'b' :: []) ++ '\n' :: ('}' :: []))) 0
        = find_matching_brace ('{' :: '/' :: '/' :: (('{' :: '}' :: []) ++ '\n' :: ('}' :: []))) 0) ∧
    (find_matching_brace ('{' :: '/' :: '*' :: (('a' :: 'b' :: []) ++ '*' :: '/' :: ('}' :: []))) 0
        = find_matching_brace ('{' :: '/' :: '*' :: (('{' :: '}' :: []) ++ '*' :: '/' :: ('}' :: []))) 0) ∧
    (find_matching_brace ('{' :: '/' :: '*' :: ('a' :: 'b' :: 'c' :: [])) 0
        = find_matching_brace ('{' :: '/' :: '*' :: ('{' :: '}' :: 'c' :: [])) 0) :=
  ⟨c3_amended.1 _ _ _ rfl (by decide) (by decide) (by decide) (by decide),
    c3_amended.2.1 _ _ _ rfl (by decide) (by decide),
    c3_amended.2.2.1 _ _ _ rfl (by decide) (by decide),
    c3_amended.2.2.2.1 _ _ _ rfl (by decide) (by decide),
    c3_amended.2.2.2.2.1 _ _ _ rfl (by decide) (by decide),
    c3_amended.2.2.2.2.2 _ _ rfl (by decide) (by decide) (by decide)⟩

end CabinetIsolation

namespace CabinetIsolation

/-! ### The reference patterns

`cleanup_orphans.py` and `clean_commented_refs.py` locate references with
three regexes:

* `REF_RE      = objects/objects_[A-Za-z0-9_]+/([\S]*?\.xml)`
* `PATTERN_FULL = objects/objects_[^/]+/(.*?\.xml)`
* `PATTERN_OLD  = objects/(?!objects_)(.*?\.xml)`

In each, the character class before `/` cannot match `/`, so the greedy
`+` has a unique viable run (any shorter run leaves a non-`/` character
where the literal `/` must match), and the lazy group takes the shortest
prefix admissible before `.xml`; the embeddings below implement exactly
these semantics.  `finditer` emits non-overlapping matches left to
right. -/

/-- Lazy `([\S]*?\.xml)` of `REF_RE`: the shortest run of non-whitespace
characters followed by `.xml`; returns the run length. -/
def lazyNonspaceXml : List Char → Option Nat
  | [] => if headMatches (strL ".xml") [] then some 0 else none
  | c :: cs =>
    if headMatches (strL ".xml") (c :: cs) then some 0
    else if pySpace c then none
    else (lazyNonspaceXml cs).map (· + 1)

/-- Lazy `(.*?\.xml)` of `PATTERN_FULL`/`PATTERN_OLD` (`.` does not match
newline): the shortest newline-free run followed by `.xml`; returns the
run length. -/
def lazyDotXml : List Char → Option Nat
  | [] => if headMatches (strL ".xml") [] then some 0 else none
  | c :: cs =>
    if headMatches (strL ".xml") (c :: cs) then some 0
    else if c = '\n' then none
    else (lazyDotXml cs).map (· + 1)

/-- `REF_RE` anchored at the head of `l`: on success returns
`(consumed length, full match, group 1)`. -/
def refMatchAt (l : List Char) : Option (Nat × List Char × List Char) :=
  if headMatches (strL "objects/objects_") l then
    let rest := l.drop 16
    let run := rest.takeWhile wordChar
    if run.isEmpty then none
    else
      match rest.drop run.length with
      | '/' :: rest2 =>
        match lazyNonspaceXml rest2 with
        | some k =>
          let grp := rest2.take k ++ strL ".xml"
          some (16 + run.length + 1 + k + 4,
            strL "objects/objects_" ++ run ++ '/' :: grp, grp)
        | none => none
      | _ => none
  else none

/-- `PATTERN_FULL` anchored at the head of `l`. -/
def fullMatchAt (l : List Char) : Option (Nat × List Char × List Char) :=
  if headMatches (strL "objects/objects_") l then
    let rest := l.drop 16
    let run := rest.takeWhile (fun c => ¬ c = '/')
    if run.isEmpty then none
    else
      match rest.drop run.length with
      | '/' :: rest2 =>
        match lazyDotXml rest2 with
        | some k =>
          let grp := rest2.take k ++ strL ".xml"
          some (16 + run.length + 1 + k + 4,
            strL "objects/objects_" ++ run ++ '/' :: grp, grp)
        | none => none
      | _ => none
  else none

/-- `PATTERN_OLD` anchored at the head of `l` (with the negative
lookahead `(?!objects_)`): on success returns `(consumed length,
group 1)`. -/
def oldMatchAt (l : List Char) : Option (Nat × List Char) :=
  if headMatches (strL "objects/") l then
    let rest := l.drop 8
    if headMatches (strL "objects_") rest then none
    else
      match lazyDotXml rest with
      | some k => some (8 + k + 4, rest.take k ++ strL ".xml")
      | none => none
  else none

/-- `finditer`: scan left to right, emit non-overlapping matches with
their start offsets, resuming after each match.  All matchers used here
consume at least one character, so `fuel = length` suffices. -/
def scanAll {α : Type} (matchAt : List Char → Option (Nat × α)) :
    Nat → List Char → Nat → List (Nat × α)
  | 0, _, _ => []
  | _ + 1, [], _ => []
  | fuel + 1, c :: cs, pos =>
    match matchAt (c :: cs) with
    | some (len, a) =>
      (pos, a) :: scanAll matchAt fuel ((c :: cs).drop len) (pos + len)
    | none => scanAll matchAt fuel cs (pos + 1)

/-- All `REF_RE` matches of a line: `(start, full match, group 1)`. -/
def refsInLine (line : List Char) : List (Nat × List Char × List Char) :=
  scanAll refMatchAt line.length line 0

/-- All `PATTERN_FULL` matches of a text: `(full match, group 1)`. -/
def fullRefs (text : List Char) : List (List Char × List Char) :=
  (scanAll fullMatchAt text.length text 0).map (·.2)

/-- All `PATTERN_OLD` matches of a text: the group-1 captures. -/
def oldRefs (text : List Char) : List (List Char) :=
  (scanAll oldMatchAt text.length text 0).map (·.2)

end CabinetIsolation

namespace CabinetIsolation

/-! ### Python-set helpers

Python `set`s are modelled as duplicate-free lists built by
membership-checked insertion; `set.update` folds such insertions. -/

def sinsert {α : Type} [DecidableEq α] (x : α) (s : List α) : List α :=
  if x ∈ s then s else s ++ [x]

def supdate {α : Type} [DecidableEq α] (s l : List α) : List α :=
  l.foldl (fun acc y => sinsert y acc) s

/-! ### `clean_commented_refs.classify_refs_in_file`

The classifier walks the lines of a file keeping a block-comment flag.
Texts read by the scripts have universal-newline translation applied, so
`str.splitlines` is `\n`-splitting (no trailing empty line). -/

/-- Python `str.splitlines()` on `\n`-terminated text. -/
def splitLinesL : List Char → List (List Char)
  | [] => []
  | c :: cs =>
    if c = '\n' then [] :: splitLinesL cs
    else
      match splitLinesL cs with
      | [] => [[c]]
      | l :: ls => (c :: l) :: ls

/-- Python `str.splitlines(keepends=True)` on `\n`-terminated text. -/
def splitKeepL : List Char → List (List Char)
  | [] => []
  | c :: cs =>
    if c = '\n' then ('\n' :: []) :: splitKeepL cs
    else
      match splitKeepL cs with
      | [] => [[c]]
      | l :: ls => (c :: l) :: ls

/-- `is_line_commented(line)`: the line starts (after leading whitespace)
with `//`. -/
def is_line_commented (line : List Char) : Bool :=
  headMatches (strL "//") (lstripL line)

/-- One entry of the classifier's `commented` dictionary:
`(relative path, line number, rstripped line text)`. -/
abbrev ComEntry : Type := List Char × Nat × List Char

/-- The containment filter `if f"objects/{obj_prefix}/" in full` applied
to every match. -/
def containsPfx (pfx full : List Char) : Bool :=
  hasSub (strL "objects/" ++ pfx ++ strL "/") full

/-- Did the classifier's block-comment flag change on this line?
`BLOCK_COMMENT_END` clears it; a `BLOCK_COMMENT_START` without an end on
the same line sets it. -/
def lineBlockNext (inBlock : Bool) (line : List Char) : Bool :=
  if inBlock then ! hasSub (strL "*/") line
  else hasSub (strL "/*") line && ! hasSub (strL "*/") line

/-- A line that opens a block comment (contains `/*` but no `*/`). -/
def isOpenerLine (line : List Char) : Bool :=
  hasSub (strL "/*") line && ! hasSub (strL "*/") line

/-- All commented entries of a line on which every match is commented
(a line inside a block comment, or a block-comment opener line). -/
def lineComRefs (pfx : List Char) (n : Nat) (line : List Char) :
    List ComEntry :=
  (refsInLine line).filterMap fun m =>
    if containsPfx pfx m.2.1 then some (m.2.2, n, rstripL line) else none

/-- The active references of an ordinary line: the match loop of the
source adds a match to `active` when the ref string mentions the cabinet,
the line is not `//`-commented, and the match does not start after the
first `//` of the line. -/
def lineActiveRefs (pfx line : List Char) : List (List Char) :=
  if is_line_commented line then []
  else
    (refsInLine line).filterMap fun m =>
      if containsPfx pfx m.2.1 then
        match findSub (strL "//") line with
        | some p => if p < m.1 then none else some m.2.2
        | none => some m.2.2
      else none

/-- The commented entries of an ordinary line (the complementary branch
of the same match loop). -/
def lineInlineComRefs (pfx : List Char) (n : Nat) (line : List Char) :
    List ComEntry :=
  (refsInLine line).filterMap fun m =>
    if containsPfx pfx m.2.1 then
      if is_line_commented line then some (m.2.2, n, rstripL line)
      else
        match findSub (strL "//") line with
        | some p =>
          if p < m.1 then some (m.2.2, n, rstripL line) else none
        | none => none
    else none

/-- Process one line of `classify_refs_in_file`: given the block-comment
flag, return the next flag, the active references and the commented
entries contributed by the line (the Python loop distributes the matches
of a line into the two collections in order). -/
def classifyLine (pfx : List Char) (inBlock : Bool) (n : Nat)
    (line : List Char) :
    Bool × List (List Char) × List ComEntry :=
  if inBlock then
    (! hasSub (strL "*/") line, [], lineComRefs pfx n line)
  else if isOpenerLine line then
    (true, [], lineComRefs pfx n line)
  else
    (false, lineActiveRefs pfx line, lineInlineComRefs pfx n line)

/-- The line fold of `classify_refs_in_file`. -/
def classifyGo (pfx : List Char) :
    List (Nat × List Char) → Bool → List (List Char) × List ComEntry
  | [], _ => ([], [])
  | (n, line) :: rest, inB =>
    let s := classifyLine pfx inB n line
    let r := classifyGo pfx rest s.1
    (s.2.1 ++ r.1, s.2.2 ++ r.2)

/-- `classify_refs_in_file(text, obj_prefix)`: split the text into lines
and classify every `REF_RE` occurrence that mentions
`objects/<obj_prefix>/` as active or commented.  The first component
models the Python `active` set by its members; the second flattens the
`commented` dict into its entries in emission order. -/
def classify_refs_in_file (text pfx : List Char) :
    List (List Char) × List ComEntry :=
  classifyGo pfx (List.enumFrom 1 (splitLinesL text)) false

end CabinetIsolation

namespace CabinetIsolation

/-! ### Claim C2: the activity classification is line-local -/

theorem classifyLine_fst (pfx : List Char) (b : Bool) (n : Nat)
    (line : List Char) :
    (classifyLine pfx b n line).1 = lineBlockNext b line := by
  cases b with
  | false =>
    by_cases h1 : hasSub (strL "/*") line = true <;>
      by_cases h2 : hasSub (strL "*/") line = true <;>
      simp [classifyLine, lineBlockNext, isOpenerLine, h1, h2]
  | true => simp [classifyLine, lineBlockNext]

theorem classifyLine_act (pfx : List Char) (b : Bool) (n : Nat)
    (line : List Char) :
    (classifyLine pfx b n line).2.1 =
      if b then []
      else if isOpenerLine line then []
      else lineActiveRefs pfx line := by
  cases b with
  | false =>
    by_cases h : isOpenerLine line = true <;> simp [classifyLine, h]
  | true => simp [classifyLine]

theorem classifyGo_active_iff (pfx : List Char) :
    ∀ (ls : List (List Char)) (b : Bool) (n0 : Nat) (rel : List Char),
    rel ∈ (classifyGo pfx (List.enumFrom n0 ls) b).1 ↔
      ∃ k : Nat, ∃ h : k < ls.length,
        (ls.take k).foldl lineBlockNext b = false ∧
        isOpenerLine (ls.get ⟨k, h⟩) = false ∧
        rel ∈ lineActiveRefs pfx (ls.get ⟨k, h⟩) := by
  intro ls
  induction ls with
  | nil =>
    intro b n0 rel
    constructor
    · intro h
      simp [classifyGo] at h
    · rintro ⟨k, h, _⟩
      exact absurd h (by simp)
  | cons l ls ih =>
    intro b n0 rel
    have hunf : classifyGo pfx (List.enumFrom n0 (l :: ls)) b =
        (let s := classifyLine pfx b n0 l
         let r := classifyGo pfx (List.enumFrom (n0 + 1) ls) s.1
         (s.2.1 ++ r.1, s.2.2 ++ r.2)) := rfl
    rw [hunf]
    simp only [List.mem_append]
    rw [classifyLine_fst, classifyLine_act, ih _ (n0 + 1) rel]
    constructor
    · rintro (hhead | ⟨k, hk, h1, h2, h3⟩)
      · refine ⟨0, by simp, ?_⟩
        by_cases hb : b
        · simp [hb] at hhead
        · by_cases hop : isOpenerLine l = true
          · simp [hb, hop] at hhead
          · simp only [hb, if_false, hop, if_false] at hhead
            simp only [List.take_zero, List.foldl_nil, List.get]
            refine ⟨by simp [hb], by simp [hop], hhead⟩
      · refine ⟨k + 1, by simpa using hk, ?_⟩
        simp only [List.take_succ_cons, List.foldl_cons, List.get]
        exact ⟨h1, h2, h3⟩
    · rintro ⟨k, hk, h1, h2, h3⟩
      cases k with
      | zero =>
        left
        simp only [List.take_zero, List.foldl_nil] at h1
        simp only [List.get] at h2 h3
        simp [h1, h2, h3]
      | succ k =>
        right
        refine ⟨k, by simpa using hk, ?_⟩
        simp only [List.take_succ_cons, List.foldl_cons, List.get] at h1 h2 h3
        exact ⟨h1, h2, h3⟩

end CabinetIsolation

namespace CabinetIsolation

/-- C2 counterexample: on the single-line block comment
`x /* objects/objects_C/a.xml */ y` the reference occurrence (starting at
offset 5, strictly between the `/*` at offset 2 and the `*/` at offset
29, hence fully inside a block-comment region) is classified Active by
`classify_refs_in_file` — the classifier's single-line shortcut never
recognises a `/* … */` comment that opens and closes on the same line. -/
theorem c2_counterexample :
    (classify_refs_in_file (strL "x /* objects/objects_C/a.xml */ y")
        (strL "objects_C")).1 = [strL "a.xml"] ∧
      findSub (strL "/*") (strL "x /* objects/objects_C/a.xml */ y") = some 2 ∧
      findSub (strL "*/") (strL "x /* objects/objects_C/a.xml */ y") = some 29 ∧
      (refsInLine (strL "x /* objects/objects_C/a.xml */ y")).map
          (fun m => (m.1, m.2.1.length)) = [(5, 23)] := by
  refine ⟨by decide, by decide, by decide, by decide⟩

/-- C2 (amended): the classifier is line-based, not span-based.  A
reference occurrence is Active iff it lies on a line that (a) is not
inside a multi-line block comment (the running flag is clear), (b) is
not itself a block-comment opener line, and (c) passes the line-local
test of `lineActiveRefs`: the line is not `//`-commented and the
occurrence does not start after the first `//` of the line.  In
particular an occurrence after an inline `//` or on any line of a
multi-line `/* … */` block is Inactive, but an occurrence inside a
single-line `/* … */` comment is Active, and an occurrence on the closing
line of a block comment is Inactive even after the `*/`. -/
theorem c2_amended (text pfx rel : List Char) :
    rel ∈ (classify_refs_in_file text pfx).1 ↔
      ∃ k : Nat, ∃ h : k < (splitLinesL text).length,
        ((splitLinesL text).take k).foldl lineBlockNext false = false ∧
        isOpenerLine ((splitLinesL text).get ⟨k, h⟩) = false ∧
        rel ∈ lineActiveRefs pfx ((splitLinesL text).get ⟨k, h⟩) :=
  classifyGo_active_iff pfx (splitLinesL text) false 1 rel

end CabinetIsolation

namespace CabinetIsolation

/-! ### Documents and the reference closures

A document set is an association list from relative path to text;
`lookup` models `Path.exists` + `read_text_safe` (a missing key is a
missing file). -/

abbrev Name : Type := List Char

abbrev Doc : Type := Name × List Char

/-- Lexicographic comparison of names (Python string `<`). -/
def ltName : Name → Name → Bool
  | [], [] => false
  | [], _ :: _ => true
  | _ :: _, [] => false
  | a :: as, b :: bs => if a = b then ltName as bs else decide (a < b)

def insertName (x : Name) : List Name → List Name
  | [] => [x]
  | y :: ys => if ltName x y then x :: y :: ys else y :: insertName x ys

/-- Python `sorted` on names. -/
def sortNames (l : List Name) : List Name := l.foldr insertName []

theorem mem_insertName {x a : Name} :
    ∀ {l : List Name}, a ∈ insertName x l ↔ a = x ∨ a ∈ l := by
  intro l
  induction l with
  | nil => simp [insertName]
  | cons y ys ih =>
    by_cases h : ltName x y = true
    · simp [insertName, h, ih]
      try tauto
    · simp [insertName, h, ih]
      try tauto

theorem mem_sortNames {a : Name} :
    ∀ {l : List Name}, a ∈ sortNames l ↔ a ∈ l := by
  intro l
  induction l with
  | nil => simp [sortNames]
  | cons y ys ih =>
    show a ∈ insertName y (sortNames ys) ↔ _
    rw [mem_insertName]
    simp [ih]

/-! ### `clean_commented_refs.find_comment_orphans` -/

/-- One expansion pass of the `while` loop: for every `rel` in the
snapshot of `active_global`, if the file exists, add the active
references of its text. -/
def fcoPass (objDocs : List Doc) (pfx : Name) (act : List Name) :
    List Name :=
  act.foldl
    (fun acc rel =>
      match List.lookup rel objDocs with
      | some t => supdate acc (classify_refs_in_file t pfx).1
      | none => acc)
    act

/-- The `while len(active_global) != prev` loop, with a fuel bound on the
number of passes.  The Python loop is unbounded; `fcoFuel` below always
suffices because each non-final pass strictly grows the set (see
`fcoClosure_fix`). -/
def fcoLoop (objDocs : List Doc) (pfx : Name) :
    Nat → List Name → List Name
  | 0, act => act
  | fuel + 1, act =>
    let act2 := fcoPass objDocs pfx act
    if act2.length = act.length then act2
    else fcoLoop objDocs pfx fuel act2

/-- All active references extractable from any document of the set: a
bound on everything the closure can ever add. -/
def allActives (objDocs : List Doc) (pfx : Name) : List Name :=
  (objDocs.map (fun d => (classify_refs_in_file d.2 pfx).1)).flatten

def fcoFuel (objDocs : List Doc) (pfx : Name) (act0 : List Name) : Nat :=
  (act0 ++ allActives objDocs pfx).dedup.length + 1

/-- The fixpoint expansion of `active_global`. -/
def fcoClosure (objDocs : List Doc) (pfx : Name) (act0 : List Name) :
    List Name :=
  fcoLoop objDocs pfx (fcoFuel objDocs pfx act0) act0

/-- Result of `find_comment_orphans`: comment-orphans, the flattened
`orphan_locations` dictionary (rel, (is-mnemo-file, source name), line
number, line text), and pure orphans. -/
structure FcoResult where
  commentOnly : List Name
  orphanLocs : List (Name × (Bool × Name) × Nat × List Char)
  pureOrphans : List Name
  deriving DecidableEq

/-- The initial `active_global`: the active references of every scanned
document (mnemo files first, then the cabinet's object files). -/
def fcoInit (scans : List (Bool × Doc)) (pfx : Name) : List Name :=
  scans.foldl (fun acc s => supdate acc (classify_refs_in_file s.2.2 pfx).1) []

/-- The flattened `commented_global` dictionary in emission order. -/
def fcoCommented (scans : List (Bool × Doc)) (pfx : Name) :
    List (Name × (Bool × Name) × Nat × List Char) :=
  scans.foldl
    (fun acc s =>
      acc ++ ((classify_refs_in_file s.2.2 pfx).2.map
        (fun e => (e.1, (s.1, s.2.1), e.2.1, e.2.2))))
    []

/-- `find_comment_orphans(cabinet)` over explicit document sets: scans
the mnemo files of the cabinet and the cabinet's object files, expands
the active set to its fixpoint, and classifies every object file as
kept (active), comment orphan, or pure orphan. -/
def find_comment_orphans (mnemoDocs objDocs : List Doc) (cab : Name) :
    FcoResult :=
  let pfx := strL "objects_" ++ cab
  let allFiles := (objDocs.map (·.1)).dedup
  let scans := mnemoDocs.map (fun d => (true, d))
    ++ objDocs.map (fun d => (false, d))
  let act0 := fcoInit scans pfx
  let comGlobal := fcoCommented scans pfx
  let act := fcoClosure objDocs pfx act0
  { commentOnly := allFiles.filter
      (fun rel => rel ∉ act ∧ rel ∈ comGlobal.map (·.1))
    orphanLocs := comGlobal
    pureOrphans := allFiles.filter
      (fun rel => rel ∉ act ∧ rel ∉ comGlobal.map (·.1)) }

/-! ### `cleanup_orphans.collect_referenced_files` -/

/-- The references a single text contributes in `cleanup_orphans`:
`PATTERN_FULL` matches whose full text mentions `objects/<pfx>/`,
followed by all `PATTERN_OLD` matches. -/
def crfRefs (t : List Char) (pfx : Name) : List Name :=
  (fullRefs t).filterMap
    (fun m => if containsPfx pfx m.1 then some m.2 else none)
    ++ oldRefs t

/-- Step 1 of `collect_referenced_files`: the references found in the
cabinet's mnemo files. -/
def crfInit (mnemoTexts : List (List Char)) (pfx : Name) : List Name :=
  mnemoTexts.foldl (fun acc t => supdate acc (crfRefs t pfx)) []

/-- One pass of the cross-reference loop: scan every referenced file
that exists and add its references. -/
def crfPass (objDocs : List Doc) (pfx : Name) (ref : List Name) :
    List Name :=
  ref.foldl
    (fun acc rel =>
      match List.lookup rel objDocs with
      | some t => supdate acc (crfRefs t pfx)
      | none => acc)
    ref

/-- The `while len(referenced) != prev_size` loop with its hard
iteration cap: `iteration` is incremented before each pass and the loop
breaks silently once `iteration > 50`, so at most 50 passes run;
`fuel` counts the passes still allowed. -/
def crfLoop (objDocs : List Doc) (pfx : Name) :
    Nat → List Name → Int → List Name
  | 0, ref, _ => ref
  | fuel + 1, ref, prev =>
    if (ref.length : Int) ≠ prev then
      crfLoop objDocs pfx fuel (crfPass objDocs pfx ref) (ref.length : Int)
    else ref

/-- `collect_referenced_files(cabinet_name, cabinet_obj_dir)` over
explicit document sets. -/
def collect_referenced_files (cab : Name) (mnemoTexts : List (List Char))
    (objDocs : List Doc) : List Name :=
  let pfx := strL "objects_" ++ cab
  crfLoop objDocs pfx 50 (crfInit mnemoTexts pfx) (-1)

end CabinetIsolation

namespace CabinetIsolation

/-! ### Lemmas about the set model -/

theorem mem_sinsert {α : Type} [DecidableEq α] {a x : α} {s : List α} :
    a ∈ sinsert x s ↔ a = x ∨ a ∈ s := by
  unfold sinsert
  by_cases h : x ∈ s
  · simp only [if_pos h, List.mem_append]
    constructor
    · exact fun hm => Or.inr hm
    · rintro (rfl | hm)
      · exact h
      · exact hm
  · simp [h]
    tauto

theorem sinsert_append {α : Type} [DecidableEq α] (x : α) (s : List α) :
    ∃ ex : List α, sinsert x s = s ++ ex := by
  unfold sinsert
  by_cases h : x ∈ s <;> simp [h]

theorem sinsert_nodup {α : Type} [DecidableEq α] {x : α} {s : List α}
    (h : s.Nodup) : (sinsert x s).Nodup := by
  unfold sinsert
  by_cases hx : x ∈ s
  · simpa [hx]
  · simp [hx, List.nodup_append, h]

theorem mem_supdate {α : Type} [DecidableEq α] {a : α} :
    ∀ {l s : List α}, a ∈ supdate s l ↔ a ∈ s ∨ a ∈ l := by
  intro l
  induction l with
  | nil => intro s; simp [supdate]
  | cons x xs ih =>
    intro s
    show a ∈ supdate (sinsert x s) xs ↔ _
    rw [ih, mem_sinsert]
    simp
    tauto

theorem supdate_append {α : Type} [DecidableEq α] :
    ∀ (l s : List α), ∃ ex : List α, supdate s l = s ++ ex := by
  intro l
  induction l with
  | nil => intro s; exact ⟨[], by simp [supdate]⟩
  | cons x xs ih =>
    intro s
    obtain ⟨e1, he1⟩ := sinsert_append x s
    obtain ⟨e2, he2⟩ := ih (sinsert x s)
    refine ⟨e1 ++ e2, ?_⟩
    show supdate (sinsert x s) xs = s ++ (e1 ++ e2)
    rw [he2, he1, List.append_assoc]

theorem supdate_nodup {α : Type} [DecidableEq α] :
    ∀ {l s : List α}, s.Nodup → (supdate s l).Nodup := by
  intro l
  induction l with
  | nil => intro s h; exact h
  | cons x xs ih =>
    intro s h
    exact ih (sinsert_nodup h)

theorem mem_fcoPass {objDocs : List Doc} {pfx : Name} {a : Name} :
    ∀ {act : List Name}, a ∈ fcoPass objDocs pfx act ↔
      a ∈ act ∨ ∃ rel ∈ act, ∃ t, List.lookup rel objDocs = some t ∧
        a ∈ (classify_refs_in_file t pfx).1 := by
  have gen : ∀ (l acc : List Name),
      a ∈ l.foldl (fun acc rel =>
          match List.lookup rel objDocs with
          | some t => supdate acc (classify_refs_in_file t pfx).1
          | none => acc) acc ↔
        a ∈ acc ∨ ∃ rel ∈ l, ∃ t, List.lookup rel objDocs = some t ∧
          a ∈ (classify_refs_in_file t pfx).1 := by
    intro l
    induction l with
    | nil => intro acc; simp
    | cons x xs ih =>
      intro acc
      rcases hx : List.lookup x objDocs with _ | t
      · show a ∈ xs.foldl _ (match List.lookup x objDocs with
          | some t => supdate acc (classify_refs_in_file t pfx).1
          | none => acc) ↔ _
        rw [hx]
        rw [ih acc]
        constructor
        · rintro (h | ⟨rel, hrel, t, hl, hm⟩)
          · exact Or.inl h
          · exact Or.inr ⟨rel, List.mem_cons_of_mem x hrel, t, hl, hm⟩
        · rintro (h | ⟨rel, hrel, t, hl, hm⟩)
          · exact Or.inl h
          · rcases List.mem_cons.mp hrel with rfl | hrel2
            · rw [hx] at hl
              exact absurd hl (by simp)
            · exact Or.inr ⟨rel, hrel2, t, hl, hm⟩
      · show a ∈ xs.foldl _ (match List.lookup x objDocs with
          | some t => supdate acc (classify_refs_in_file t pfx).1
          | none => acc) ↔ _
        rw [hx]
        rw [ih _]
        rw [mem_supdate]
        constructor
        · rintro ((h | h) | ⟨rel, hrel, t2, hl, hm⟩)
          · exact Or.inl h
          · exact Or.inr ⟨x, List.mem_cons_self x xs, t, hx, h⟩
          · exact Or.inr ⟨rel, List.mem_cons_of_mem x hrel, t2, hl, hm⟩
        · rintro (h | ⟨rel, hrel, t2, hl, hm⟩)
          · exact Or.inl (Or.inl h)
          · rcases List.mem_cons.mp hrel with rfl | hrel2
            · rw [hx] at hl
              cases hl
              exact Or.inl (Or.inr hm)
            · exact Or.inr ⟨rel, hrel2, t2, hl, hm⟩
  intro act
  exact gen act act

theorem fcoPass_append (objDocs : List Doc) (pfx : Name) :
    ∀ (act : List Name), ∃ ex : List Name,
      fcoPass objDocs pfx act = act ++ ex := by
  have gen : ∀ (l : List Name) (acc : List Name), ∃ ex : List Name,
      l.foldl (fun acc rel =>
          match List.lookup rel objDocs with
          | some t => supdate acc (classify_refs_in_file t pfx).1
          | none => acc) acc = acc ++ ex := by
    intro l
    induction l with
    | nil => intro acc; exact ⟨[], by simp⟩
    | cons x xs ih =>
      intro acc
      rcases hx : List.lookup x objDocs with _ | t
      · show ∃ ex, xs.foldl _ (match List.lookup x objDocs with
          | some t => supdate acc (classify_refs_in_file t pfx).1
          | none => acc) = acc ++ ex
        rw [hx]
        exact ih acc
      · show ∃ ex, xs.foldl _ (match List.lookup x objDocs with
          | some t => supdate acc (classify_refs_in_file t pfx).1
          | none => acc) = acc ++ ex
        rw [hx]
        obtain ⟨e1, he1⟩ := supdate_append (classify_refs_in_file t pfx).1 acc
        obtain ⟨e2, he2⟩ := ih (supdate acc (classify_refs_in_file t pfx).1)
        exact ⟨e1 ++ e2, by rw [he2, he1, List.append_assoc]⟩
  intro act
  exact gen act act

theorem fcoPass_nodup {objDocs : List Doc} {pfx : Name} :
    ∀ {act : List Name}, act.Nodup → (fcoPass objDocs pfx act).Nodup := by
  have gen : ∀ (l : List Name) {acc : List Name}, acc.Nodup →
      (l.foldl (fun acc rel =>
          match List.lookup rel objDocs with
          | some t => supdate acc (classify_refs_in_file t pfx).1
          | none => acc) acc).Nodup := by
    intro l
    induction l with
    | nil => intro acc h; exact h
    | cons x xs ih =>
      intro acc h
      rcases hx : List.lookup x objDocs with _ | t
      · show (xs.foldl _ (match List.lookup x objDocs with
          | some t => supdate acc (classify_refs_in_file t pfx).1
          | none => acc)).Nodup
        rw [hx]
        exact ih h
      · show (xs.foldl _ (match List.lookup x objDocs with
          | some t => supdate acc (classify_refs_in_file t pfx).1
          | none => acc)).Nodup
        rw [hx]
        exact ih (supdate_nodup h)
  intro act h
  exact gen act h

end CabinetIsolation

namespace CabinetIsolation

theorem nodup_length_le {α : Type} {l1 l2 : List α} (h1 : l1.Nodup)
    (h2 : l1 ⊆ l2) : l1.length ≤ l2.length :=
  (List.subperm_of_subset h1 h2).length_le

theorem lookup_mem_pair {k : Name} {t : List Char} :
    ∀ {docs : List Doc}, List.lookup k docs = some t → (k, t) ∈ docs := by
  intro docs
  induction docs with
  | nil => intro h; exact absurd h (by simp)
  | cons d ds ih =>
    intro h
    rcases d with ⟨dk, dv⟩
    rw [List.lookup_cons] at h
    by_cases hk : (k == dk) = true
    · rw [hk] at h
      cases h
      have : k = dk := eq_of_beq hk
      rw [this]
      exact List.mem_cons_self _ _
    · rw [Bool.not_eq_true] at hk
      rw [hk] at h
      exact List.mem_cons_of_mem _ (ih h)

theorem subset_fcoPass (objDocs : List Doc) (pfx : Name) (act : List Name) :
    act ⊆ fcoPass objDocs pfx act := by
  obtain ⟨ex, hex⟩ := fcoPass_append objDocs pfx act
  rw [hex]
  exact List.subset_append_left act ex

theorem fcoLoop_subset (objDocs : List Doc) (pfx : Name) :
    ∀ (fuel : Nat) (act : List Name), act ⊆ fcoLoop objDocs pfx fuel act := by
  intro fuel
  induction fuel with
  | zero => intro act; exact List.Subset.refl act
  | succ fuel ih =>
    intro act
    show act ⊆ (let act2 := fcoPass objDocs pfx act
      if act2.length = act.length then act2
      else fcoLoop objDocs pfx fuel act2)
    by_cases h : (fcoPass objDocs pfx act).length = act.length
    · simpa [h] using subset_fcoPass objDocs pfx act
    · simp only [h, if_false]
      exact (subset_fcoPass objDocs pfx act).trans (ih _)

theorem fcoPass_sub_bound {objDocs : List Doc} {pfx : Name}
    {act : List Name} {a : Name} (h : a ∈ fcoPass objDocs pfx act) :
    a ∈ act ∨ a ∈ allActives objDocs pfx := by
  rcases mem_fcoPass.mp h with h | ⟨rel, _, t, hl, hm⟩
  · exact Or.inl h
  · right
    unfold allActives
    rw [List.mem_flatten]
    refine ⟨(classify_refs_in_file t pfx).1, ?_, hm⟩
    rw [List.mem_map]
    exact ⟨(rel, t), lookup_mem_pair hl, rfl⟩

theorem fcoLoop_bound (objDocs : List Doc) (pfx : Name) :
    ∀ (fuel : Nat) (act : List Name) (a : Name),
      a ∈ fcoLoop objDocs pfx fuel act →
      a ∈ act ∨ a ∈ allActives objDocs pfx := by
  intro fuel
  induction fuel with
  | zero => intro act a h; exact Or.inl h
  | succ fuel ih =>
    intro act a h
    rw [show fcoLoop objDocs pfx (fuel + 1) act =
        (let act2 := fcoPass objDocs pfx act
         if act2.length = act.length then act2
         else fcoLoop objDocs pfx fuel act2) from rfl] at h
    by_cases hl : (fcoPass objDocs pfx act).length = act.length
    · simp only [hl, if_true] at h
      exact fcoPass_sub_bound h
    · simp only [hl, if_false] at h
      rcases ih _ a h with h2 | h2
      · exact fcoPass_sub_bound h2
      · exact Or.inr h2

/-- Termination of the uncapped `while` loop of `find_comment_orphans`:
with enough fuel the loop reaches a genuine fixpoint of the expansion
pass — exactly the state in which the Python loop exits. -/
theorem fcoLoop_fix (objDocs : List Doc) (pfx : Name) (V : List Name)
    (_hV : V.Nodup) (hU : ∀ a ∈ allActives objDocs pfx, a ∈ V) :
    ∀ (fuel : Nat) (act : List Name), act.Nodup → act ⊆ V →
      V.length + 1 ≤ fuel + act.length →
      fcoPass objDocs pfx (fcoLoop objDocs pfx fuel act)
        = fcoLoop objDocs pfx fuel act := by
  intro fuel
  induction fuel with
  | zero =>
    intro act hnd hsub hlen
    have := nodup_length_le hnd hsub
    omega
  | succ fuel ih =>
    intro act hnd hsub hlen
    obtain ⟨ex, hex⟩ := fcoPass_append objDocs pfx act
    show fcoPass objDocs pfx
        (let act2 := fcoPass objDocs pfx act
         if act2.length = act.length then act2
         else fcoLoop objDocs pfx fuel act2)
      = (let act2 := fcoPass objDocs pfx act
         if act2.length = act.length then act2
         else fcoLoop objDocs pfx fuel act2)
    by_cases hl : (fcoPass objDocs pfx act).length = act.length
    · simp only [hl, if_true]
      have hex0 : ex = [] := by
        have := congrArg List.length hex
        rw [List.length_append] at this
        rw [hl] at this
        have : ex.length = 0 := by omega
        exact List.length_eq_zero.mp this
      have hact2 : fcoPass objDocs pfx act = act := by
        rw [hex, hex0, List.append_nil]
      rw [hact2, hact2]
    · simp only [hl, if_false]
      refine ih (fcoPass objDocs pfx act) (fcoPass_nodup hnd) ?_ ?_
      · intro a ha
        rcases fcoPass_sub_bound ha with h | h
        · exact hsub h
        · exact hU a h
      · have hexne : ex ≠ [] := by
          intro h0
          rw [h0, List.append_nil] at hex
          exact hl (congrArg List.length hex)
        have : 1 ≤ ex.length := by
          cases ex with
          | nil => exact absurd rfl hexne
          | cons e es => simp
        have := congrArg List.length hex
        rw [List.length_append] at this
        omega

end CabinetIsolation

namespace CabinetIsolation

/-! ### A reference chain that exhausts the iteration cap

`collect_referenced_files` runs at most 50 passes.  The documents below
form the chain `a00 → a01 → … → a50 → a51` ending in the two-cycle
`a50 ↔ a51`; the mnemo file references `a00`.  Every pass absorbs one
further link, so after the 50 allowed passes `a51` has not yet been
reached and the loop breaks silently. -/

def twoDigits (k : Nat) : List Char :=
  [Char.ofNat (48 + k / 10), Char.ofNat (48 + k % 10)]

def chainName (k : Nat) : Name := 'a' :: twoDigits k ++ strL ".xml"

/-- A text whose only reference is to `chainName k`. -/
def chainText (k : Nat) : List Char :=
  strL "objects/objects_C/" ++ chainName k

def chainDocs : List Doc :=
  ((List.range 51).map (fun k => (chainName k, chainText (k + 1))))
    ++ [(chainName 51, chainText 50)]

set_option maxRecDepth 10000 in
theorem chain_eval :
    collect_referenced_files (strL "C") [chainText 0] chainDocs
      = (List.range 51).map chainName := by decide

end CabinetIsolation

namespace CabinetIsolation

/-- C4 counterexample: on the 52-document chain the capped loop of
`collect_referenced_files` stops after its 50 allowed passes: `a50` is in
the returned set, its document exists and references `a51`, and `a51` is
a document of the cabinet, yet `a51` is missing from the returned set —
and the function's only output is that set, so the truncation carries no
diagnostic of any kind. -/
theorem c4_counterexample :
    chainName 50 ∈ collect_referenced_files (strL "C") [chainText 0] chainDocs ∧
      chainName 51 ∉ collect_referenced_files (strL "C") [chainText 0] chainDocs ∧
      List.lookup (chainName 50) chainDocs = some (chainText 51) ∧
      chainName 51 ∈ crfRefs (chainText 51) (strL "objects_" ++ strL "C") ∧
      chainName 51 ∈ chainDocs.map (·.1) := by
  refine ⟨?_, ?_, by decide, by decide, by decide⟩
  · rw [chain_eval]
    decide
  · rw [chain_eval]
    decide

/-- C8 counterexample: the chain ends in the two-cycle `a50 ↔ a51` (each
document references the other), all of it reachable from the mnemo root;
the capped closure classifies `a50` as referenced but not `a51`, so one
node of a cycle is kept while the other is lost. -/
theorem c8_counterexample :
    List.lookup (chainName 50) chainDocs = some (chainText 51) ∧
      chainName 51 ∈ crfRefs (chainText 51) (strL "objects_" ++ strL "C") ∧
      List.lookup (chainName 51) chainDocs = some (chainText 50) ∧
      chainName 50 ∈ crfRefs (chainText 50) (strL "objects_" ++ strL "C") ∧
      chainName 50 ∈ collect_referenced_files (strL "C") [chainText 0] chainDocs ∧
      chainName 51 ∉ collect_referenced_files (strL "C") [chainText 0] chainDocs := by
  refine ⟨by decide, by decide, by decide, by decide, ?_, ?_⟩
  · rw [chain_eval]
    decide
  · rw [chain_eval]
    decide

/-! ### Generic fold lemmas for the scan accumulators -/

theorem mem_foldl_supdate {α β : Type} [DecidableEq β] (f : α → List β) :
    ∀ (l : List α) (acc : List β) (a : β),
      a ∈ l.foldl (fun acc s => supdate acc (f s)) acc ↔
        a ∈ acc ∨ ∃ s ∈ l, a ∈ f s := by
  intro l
  induction l with
  | nil => intro acc a; simp
  | cons x xs ih =>
    intro acc a
    show a ∈ xs.foldl _ (supdate acc (f x)) ↔ _
    rw [ih, mem_supdate]
    constructor
    · rintro ((h | h) | ⟨s, hs, hm⟩)
      · exact Or.inl h
      · exact Or.inr ⟨x, List.mem_cons_self x xs, h⟩
      · exact Or.inr ⟨s, List.mem_cons_of_mem x hs, hm⟩
    · rintro (h | ⟨s, hs, hm⟩)
      · exact Or.inl (Or.inl h)
      · rcases List.mem_cons.mp hs with rfl | hs2
        · exact Or.inl (Or.inr hm)
        · exact Or.inr ⟨s, hs2, hm⟩

theorem nodup_foldl_supdate {α β : Type} [DecidableEq β] (f : α → List β) :
    ∀ (l : List α) (acc : List β), acc.Nodup →
      (l.foldl (fun acc s => supdate acc (f s)) acc).Nodup := by
  intro l
  induction l with
  | nil => intro acc h; exact h
  | cons x xs ih => intro acc h; exact ih _ (supdate_nodup h)

theorem mem_foldl_append {α β : Type} (f : α → List β) :
    ∀ (l : List α) (acc : List β) (a : β),
      a ∈ l.foldl (fun acc s => acc ++ f s) acc ↔
        a ∈ acc ∨ ∃ s ∈ l, a ∈ f s := by
  intro l
  induction l with
  | nil => intro acc a; simp
  | cons x xs ih =>
    intro acc a
    show a ∈ xs.foldl _ (acc ++ f x) ↔ _
    rw [ih]
    simp only [List.mem_append]
    constructor
    · rintro ((h | h) | ⟨s, hs, hm⟩)
      · exact Or.inl h
      · exact Or.inr ⟨x, List.mem_cons_self x xs, h⟩
      · exact Or.inr ⟨s, List.mem_cons_of_mem x hs, hm⟩
    · rintro (h | ⟨s, hs, hm⟩)
      · exact Or.inl (Or.inl h)
      · rcases List.mem_cons.mp hs with rfl | hs2
        · exact Or.inl (Or.inr hm)
        · exact Or.inr ⟨s, hs2, hm⟩

theorem mem_fcoInit {scans : List (Bool × Doc)} {pfx : Name} {a : Name} :
    a ∈ fcoInit scans pfx ↔
      ∃ s ∈ scans, a ∈ (classify_refs_in_file s.2.2 pfx).1 := by
  unfold fcoInit
  rw [mem_foldl_supdate]
  simp

theorem fcoInit_nodup (scans : List (Bool × Doc)) (pfx : Name) :
    (fcoInit scans pfx).Nodup :=
  nodup_foldl_supdate _ scans [] List.nodup_nil

theorem mem_fcoCommented {scans : List (Bool × Doc)} {pfx : Name}
    {e : Name × (Bool × Name) × Nat × List Char} :
    e ∈ fcoCommented scans pfx ↔
      ∃ s ∈ scans, ∃ c ∈ (classify_refs_in_file s.2.2 pfx).2,
        e = (c.1, (s.1, s.2.1), c.2.1, c.2.2) := by
  unfold fcoCommented
  rw [mem_foldl_append]
  simp only [List.mem_nil_iff, false_or, List.mem_map]
  constructor
  · rintro ⟨s, hs, c, hc, rfl⟩
    exact ⟨s, hs, c, hc, rfl⟩
  · rintro ⟨s, hs, c, hc, rfl⟩
    exact ⟨s, hs, c, hc, rfl⟩

end CabinetIsolation

namespace CabinetIsolation

/-! ### Claims C4 and C8: behaviour of the two closures -/

theorem crfPass_append (objDocs : List Doc) (pfx : Name) :
    ∀ (ref : List Name), ∃ ex : List Name,
      crfPass objDocs pfx ref = ref ++ ex := by
  have gen : ∀ (l : List Name) (acc : List Name), ∃ ex : List Name,
      l.foldl (fun acc rel =>
          match List.lookup rel objDocs with
          | some t => supdate acc (crfRefs t pfx)
          | none => acc) acc = acc ++ ex := by
    intro l
    induction l with
    | nil => intro acc; exact ⟨[], by simp⟩
    | cons x xs ih =>
      intro acc
      rcases hx : List.lookup x objDocs with _ | t
      · show ∃ ex, xs.foldl _ (match List.lookup x objDocs with
          | some t => supdate acc (crfRefs t pfx)
          | none => acc) = acc ++ ex
        rw [hx]
        exact ih acc
      · show ∃ ex, xs.foldl _ (match List.lookup x objDocs with
          | some t => supdate acc (crfRefs t pfx)
          | none => acc) = acc ++ ex
        rw [hx]
        obtain ⟨e1, he1⟩ := supdate_append (crfRefs t pfx) acc
        obtain ⟨e2, he2⟩ := ih (supdate acc (crfRefs t pfx))
        exact ⟨e1 ++ e2, by rw [he2, he1, List.append_assoc]⟩
  intro ref
  exact gen ref ref

theorem subset_crfPass (objDocs : List Doc) (pfx : Name) (ref : List Name) :
    ref ⊆ crfPass objDocs pfx ref := by
  obtain ⟨ex, hex⟩ := crfPass_append objDocs pfx ref
  rw [hex]
  exact List.subset_append_left ref ex

theorem crfLoop_subset (objDocs : List Doc) (pfx : Name) :
    ∀ (fuel : Nat) (ref : List Name) (prev : Int),
      ref ⊆ crfLoop objDocs pfx fuel ref prev := by
  intro fuel
  induction fuel with
  | zero => intro ref prev; exact List.Subset.refl ref
  | succ fuel ih =>
    intro ref prev
    show ref ⊆ (if (ref.length : Int) ≠ prev then
        crfLoop objDocs pfx fuel (crfPass objDocs pfx ref) (ref.length : Int)
      else ref)
    by_cases h : (ref.length : Int) ≠ prev
    · rw [if_pos h]
      exact (subset_crfPass objDocs pfx ref).trans (ih _ _)
    · rw [if_neg h]
      exact List.Subset.refl ref

/-- C4 (amended): the hard iteration cap makes
`collect_referenced_files` total — reaching the cap breaks the loop
instead of crashing or looping forever — and the function still returns
at least every reference found in the cabinet's mnemo files (a partial
closure).  But exceeding the cap is not reported: the function's only
output is the (possibly truncated) set itself, with no
`ClosureDidNotConverge` diagnostic, and `cleanup_orphans.main` treats
the truncated set like any other (see the counterexample). -/
theorem c4_amended (cab : Name) (mnemoTexts : List (List Char))
    (objDocs : List Doc) (a : Name)
    (ha : a ∈ crfInit mnemoTexts (strL "objects_" ++ cab)) :
    a ∈ collect_referenced_files cab mnemoTexts objDocs := by
  unfold collect_referenced_files
  exact crfLoop_subset objDocs _ 50 _ (-1) ha

/-- Witness for `c4_amended` on a one-document cabinet. -/
theorem c4_witness :
    strL "a.xml" ∈ crfInit [strL "objects/objects_C/a.xml"]
        (strL "objects_" ++ strL "C") ∧
      strL "a.xml" ∈ collect_referenced_files (strL "C")
        [strL "objects/objects_C/a.xml"] [] :=
  ⟨by decide, c4_amended (strL "C") _ [] _ (by decide)⟩

/-- Fixpoint of the uncapped closure of `find_comment_orphans`: with the
fuel it is given, `fcoClosure` reaches a state the expansion pass no
longer grows — the state in which the Python `while` loop exits. -/
theorem fcoClosure_fix (objDocs : List Doc) (pfx : Name)
    (act0 : List Name) (h0 : act0.Nodup) :
    fcoPass objDocs pfx (fcoClosure objDocs pfx act0)
      = fcoClosure objDocs pfx act0 := by
  unfold fcoClosure fcoFuel
  refine fcoLoop_fix objDocs pfx ((act0 ++ allActives objDocs pfx).dedup)
    (List.nodup_dedup _) ?_ _ act0 h0 ?_ ?_
  · intro a ha
    exact List.mem_dedup.mpr (List.mem_append_right _ ha)
  · intro a ha
    exact List.mem_dedup.mpr (List.mem_append_left _ ha)
  · omega

theorem fcoClosure_closed (objDocs : List Doc) (pfx : Name)
    (act0 : List Name) (h0 : act0.Nodup) {A B : Name} {tA : List Char}
    (hl : List.lookup A objDocs = some tA)
    (hB : B ∈ (classify_refs_in_file tA pfx).1)
    (hA : A ∈ fcoClosure objDocs pfx act0) :
    B ∈ fcoClosure objDocs pfx act0 := by
  rw [← fcoClosure_fix objDocs pfx act0 h0]
  exact mem_fcoPass.mpr (Or.inr ⟨A, hA, tA, hl, hB⟩)

/-- C8 (amended): the uncapped fixpoint closure of
`find_comment_orphans` terminates — the expansion pass fixes the
computed set, which is exactly the loop's exit condition — contains all
roots, and absorbs cycles completely: if documents `A` and `B` actively
reference each other and either is in the closure, both are.  (The
capped loop of `collect_referenced_files` also terminates but can
truncate a cycle when the cap is hit; see the counterexample.) -/
theorem c8_amended (objDocs : List Doc) (pfx : Name) (act0 : List Name)
    (h0 : act0.Nodup) :
    fcoPass objDocs pfx (fcoClosure objDocs pfx act0)
        = fcoClosure objDocs pfx act0 ∧
      act0 ⊆ fcoClosure objDocs pfx act0 ∧
      ∀ A B : Name, ∀ tA tB : List Char,
        List.lookup A objDocs = some tA →
        List.lookup B objDocs = some tB →
        B ∈ (classify_refs_in_file tA pfx).1 →
        A ∈ (classify_refs_in_file tB pfx).1 →
        (A ∈ fcoClosure objDocs pfx act0 ∨ B ∈ fcoClosure objDocs pfx act0) →
        A ∈ fcoClosure objDocs pfx act0 ∧ B ∈ fcoClosure objDocs pfx act0 := by
  refine ⟨fcoClosure_fix objDocs pfx act0 h0,
    fcoLoop_subset objDocs pfx _ act0, ?_⟩
  intro A B tA tB hlA hlB hAB hBA hor
  rcases hor with hA | hB2
  · exact ⟨hA, fcoClosure_closed objDocs pfx act0 h0 hlA hAB hA⟩
  · exact ⟨fcoClosure_closed objDocs pfx act0 h0 hlB hBA hB2, hB2⟩

/-- Witness for `c8_amended` on the concrete two-cycle `A ↔ B` with root
set `{A}`. -/
theorem c8_witness :
    ([strL "A.xml"] : List Name).Nodup ∧
      (fcoPass [(strL "A.xml", strL "objects/objects_C/B.xml"),
          (strL "B.xml", strL "objects/objects_C/A.xml")] (strL "objects_C")
          (fcoClosure [(strL "A.xml", strL "objects/objects_C/B.xml"),
            (strL "B.xml", strL "objects/objects_C/A.xml")] (strL "objects_C")
            [strL "A.xml"])
        = fcoClosure [(strL "A.xml", strL "objects/objects_C/B.xml"),
            (strL "B.xml", strL "objects/objects_C/A.xml")] (strL "objects_C")
            [strL "A.xml"]) ∧
      strL "A.xml" ∈ fcoClosure
          [(strL "A.xml", strL "objects/objects_C/B.xml"),
            (strL "B.xml", strL "objects/objects_C/A.xml")] (strL "objects_C")
          [strL "A.xml"] ∧
      strL "B.xml" ∈ fcoClosure
          [(strL "A.xml", strL "objects/objects_C/B.xml"),
            (strL "B.xml", strL "objects/objects_C/A.xml")] (strL "objects_C")
          [strL "A.xml"] := by
  have h := c8_amended
    [(strL "A.xml", strL "objects/objects_C/B.xml"),
      (strL "B.xml", strL "objects/objects_C/A.xml")] (strL "objects_C")
    [strL "A.xml"] (by decide)
  refine ⟨by decide, h.1, ?_⟩
  have hroot : strL "A.xml" ∈ fcoClosure
      [(strL "A.xml", strL "objects/objects_C/B.xml"),
        (strL "B.xml", strL "objects/objects_C/A.xml")] (strL "objects_C")
      [strL "A.xml"] :=
    h.2.1 (by decide)
  have hboth := h.2.2 (strL "A.xml") (strL "B.xml")
    (strL "objects/objects_C/B.xml") (strL "objects/objects_C/A.xml")
    (by decide) (by decide) (by decide) (by decide) (Or.inl hroot)
  exact ⟨hboth.1, hboth.2⟩

end CabinetIsolation

namespace CabinetIsolation

/-! ### Claim C1: commented references and the orphan computations -/

/-- C1 counterexample: `cleanup_orphans.collect_referenced_files` scans
raw text with regexes, so a reference that occurs only inside a line
comment still counts: the mnemo file consists of a single `//`-commented
line referencing `Y.xml`, yet `Y.xml` ends up in the referenced set and
is therefore not an orphan for `cleanup_orphans.main` — against the
claim that a commented occurrence never contributes an edge. -/
theorem c1_counterexample :
    is_line_commented
        (strL "//  ChildPanelOnRelativ(\"objects/objects_C/Y.xml\")") = true ∧
      strL "Y.xml" ∈ collect_referenced_files (strL "C")
        [strL "//  ChildPanelOnRelativ(\"objects/objects_C/Y.xml\")"]
        [(strL "Y.xml", strL "")] ∧
      (let referenced := collect_referenced_files (strL "C")
          [strL "//  ChildPanelOnRelativ(\"objects/objects_C/Y.xml\")"]
          [(strL "Y.xml", strL "")]
       ([(strL "Y.xml", strL "")].map (·.1)).filter
          (fun r => r ∉ referenced) = []) := by
  refine ⟨by decide, by decide, by decide⟩

/-- C1 (amended): the comment-aware orphan computation
`clean_commented_refs.find_comment_orphans` satisfies the claim: if a
mnemo file actively references `X`, while `Y` is a document that no
scanned file actively references but some scanned file references in a
commented position, then `X` is kept (in neither orphan set) and `Y` is
classified a comment orphan.  (`cleanup_orphans.collect_referenced_files`
does not: a commented reference keeps its target alive there — see the
counterexample.) -/
theorem c1_amended (mnemoDocs objDocs : List Doc) (cab : Name)
    (M X Y : Name) (mTxt : List Char)
    (hM : (M, mTxt) ∈ mnemoDocs)
    (hX : X ∈ (classify_refs_in_file mTxt (strL "objects_" ++ cab)).1)
    (hY : ∀ d ∈ mnemoDocs ++ objDocs,
      Y ∉ (classify_refs_in_file d.2 (strL "objects_" ++ cab)).1)
    (hYfile : Y ∈ objDocs.map (·.1))
    (hYcom : ∃ d ∈ mnemoDocs ++ objDocs,
      ∃ c ∈ (classify_refs_in_file d.2 (strL "objects_" ++ cab)).2, c.1 = Y) :
    (X ∉ (find_comment_orphans mnemoDocs objDocs cab).commentOnly ∧
        X ∉ (find_comment_orphans mnemoDocs objDocs cab).pureOrphans) ∧
      Y ∈ (find_comment_orphans mnemoDocs objDocs cab).commentOnly := by
  set pfx := strL "objects_" ++ cab with hpfx
  set scans := mnemoDocs.map (fun d => (true, d))
    ++ objDocs.map (fun d => (false, d)) with hscans
  have hscan_docs : ∀ s ∈ scans, s.2 ∈ mnemoDocs ++ objDocs := by
    intro s hs
    rw [hscans] at hs
    rcases List.mem_append.mp hs with h | h
    · rcases List.mem_map.mp h with ⟨d, hd, rfl⟩
      exact List.mem_append_left _ hd
    · rcases List.mem_map.mp h with ⟨d, hd, rfl⟩
      exact List.mem_append_right _ hd
  have hXact : X ∈ fcoClosure objDocs pfx (fcoInit scans pfx) := by
    refine fcoLoop_subset objDocs pfx _ _ ?_
    refine mem_fcoInit.mpr ⟨(true, (M, mTxt)), ?_, hX⟩
    rw [hscans]
    exact List.mem_append_left _ (List.mem_map.mpr ⟨(M, mTxt), hM, rfl⟩)
  have hYnact : Y ∉ fcoClosure objDocs pfx (fcoInit scans pfx) := by
    intro hmem
    rcases fcoLoop_bound objDocs pfx _ _ Y hmem with h | h
    · rcases mem_fcoInit.mp h with ⟨s, hs, hmem2⟩
      exact hY s.2 (hscan_docs s hs) hmem2
    · unfold allActives at h
      rcases List.mem_flatten.mp h with ⟨l, hl, hmem2⟩
      rcases List.mem_map.mp hl with ⟨d, hd, rfl⟩
      exact hY d (List.mem_append_right _ hd) hmem2
  have hYcomMem : Y ∈ (fcoCommented scans pfx).map (·.1) := by
    rcases hYcom with ⟨d, hd, c, hc, hcy⟩
    have hsd : (if d ∈ mnemoDocs then (true, d) else (false, d)) ∈ scans := by
      rw [hscans]
      by_cases hmn : d ∈ mnemoDocs
      · rw [if_pos hmn]
        exact List.mem_append_left _ (List.mem_map.mpr ⟨d, hmn, rfl⟩)
      · rw [if_neg hmn]
        rcases List.mem_append.mp hd with h | h
        · exact absurd h hmn
        · exact List.mem_append_right _ (List.mem_map.mpr ⟨d, h, rfl⟩)
    rw [List.mem_map]
    by_cases hmn : d ∈ mnemoDocs
    · refine ⟨(c.1, (true, d.1), c.2.1, c.2.2), ?_, hcy⟩
      refine mem_fcoCommented.mpr ⟨(true, d), ?_, c, hc, rfl⟩
      rw [if_pos hmn] at hsd
      exact hsd
    · refine ⟨(c.1, (false, d.1), c.2.1, c.2.2), ?_, hcy⟩
      refine mem_fcoCommented.mpr ⟨(false, d), ?_, c, hc, rfl⟩
      rw [if_neg hmn] at hsd
      exact hsd
  have hres : find_comment_orphans mnemoDocs objDocs cab =
      { commentOnly := ((objDocs.map (·.1)).dedup).filter
          (fun rel => rel ∉ fcoClosure objDocs pfx (fcoInit scans pfx) ∧
            rel ∈ (fcoCommented scans pfx).map (·.1))
        orphanLocs := fcoCommented scans pfx
        pureOrphans := ((objDocs.map (·.1)).dedup).filter
          (fun rel => rel ∉ fcoClosure objDocs pfx (fcoInit scans pfx) ∧
            rel ∉ (fcoCommented scans pfx).map (·.1)) } := rfl
  rw [hres]
  refine ⟨⟨?_, ?_⟩, ?_⟩
  · intro hmem
    rcases List.mem_filter.mp hmem with ⟨_, hcond⟩
    rw [decide_eq_true_eq] at hcond
    exact hcond.1 hXact
  · intro hmem
    rcases List.mem_filter.mp hmem with ⟨_, hcond⟩
    rw [decide_eq_true_eq] at hcond
    exact hcond.1 hXact
  · refine List.mem_filter.mpr ⟨List.mem_dedup.mpr hYfile, ?_⟩
    rw [decide_eq_true_eq]
    exact ⟨hYnact, hYcomMem⟩

/-- Witness for `c1_amended` on the concrete scenario of the spec:
root mnemo `M` actively references `X`; `X` references `Y` only inside a
line comment. -/
theorem c1_witness :
    ((strL "M.xml", strL "ChildPanelOnRelativ(\"objects/objects_C/X.xml\")")
        ∈ ([(strL "M.xml",
            strL "ChildPanelOnRelativ(\"objects/objects_C/X.xml\")")] :
          List Doc)) ∧
      (strL "X.xml" ∉ (find_comment_orphans
          [(strL "M.xml",
            strL "ChildPanelOnRelativ(\"objects/objects_C/X.xml\")")]
          [(strL "X.xml",
            strL "//  ChildPanelOnRelativ(\"objects/objects_C/Y.xml\")"),
            (strL "Y.xml", strL "")]
          (strL "C")).commentOnly ∧
        strL "X.xml" ∉ (find_comment_orphans
          [(strL "M.xml",
            strL "ChildPanelOnRelativ(\"objects/objects_C/X.xml\")")]
          [(strL "X.xml",
            strL "//  ChildPanelOnRelativ(\"objects/objects_C/Y.xml\")"),
            (strL "Y.xml", strL "")]
          (strL "C")).pureOrphans) ∧
      strL "Y.xml" ∈ (find_comment_orphans
          [(strL "M.xml",
            strL "ChildPanelOnRelativ(\"objects/objects_C/X.xml\")")]
          [(strL "X.xml",
            strL "//  ChildPanelOnRelativ(\"objects/objects_C/Y.xml\")"),
            (strL "Y.xml", strL "")]
          (strL "C")).commentOnly := by
  have h := c1_amended
    [(strL "M.xml", strL "ChildPanelOnRelativ(\"objects/objects_C/X.xml\")")]
    [(strL "X.xml",
      strL "//  ChildPanelOnRelativ(\"objects/objects_C/Y.xml\")"),
      (strL "Y.xml", strL "")]
    (strL "C") (strL "M.xml") (strL "X.xml") (strL "Y.xml")
    (strL "ChildPanelOnRelativ(\"objects/objects_C/X.xml\")")
    (by decide) (by decide) (by decide) (by decide) (by decide)
  exact ⟨by decide, h.1, h.2⟩

end CabinetIsolation

namespace CabinetIsolation

/-! ### `clean_commented_refs.remove_commented_lines` (claim C10) -/

/-- The enumerated removal loop: walk the `keepends` lines with their
1-based numbers, dropping the numbered ones and counting them. -/
def rclGo (nums : List Nat) : List (List Char) → Nat → List (List Char) × Nat
  | [], _ => ([], 0)
  | l :: ls, i =>
    let r := rclGo nums ls (i + 1)
    if i ∈ nums then (r.1, r.2 + 1) else (l :: r.1, r.2)

/-- `remove_commented_lines(filepath, line_numbers)`: returns the number
of removed lines and, when at least one line was removed, the rewritten
file content (`none` models the file being left unwritten; an empty or
unreadable file returns `(none, 0)` at once). -/
def remove_commented_lines (text : List Char) (nums : List Nat) :
    Option (List Char) × Nat :=
  if text.isEmpty then (none, 0)
  else
    let r := rclGo nums (splitKeepL text) 1
    (if r.2 = 0 then none else some r.1.flatten, r.2)

theorem rclGo_spec (nums : List Nat) :
    ∀ (ls : List (List Char)) (i : Nat),
      rclGo nums ls i =
        (((List.enumFrom i ls).filter (fun p => p.1 ∉ nums)).map (·.2),
          ((List.enumFrom i ls).filter (fun p => p.1 ∈ nums)).length) := by
  intro ls
  induction ls with
  | nil => intro i; rfl
  | cons l ls ih =>
    intro i
    show (let r := rclGo nums ls (i + 1)
      if i ∈ nums then (r.1, r.2 + 1) else (l :: r.1, r.2)) = _
    rw [ih (i + 1)]
    by_cases h : i ∈ nums
    · simp only [h, if_true]
      simp [List.enumFrom, List.filter, h]
    · simp only [h, if_false]
      simp [List.enumFrom, List.filter, h]

/-- C10: `remove_commented_lines` deletes exactly the lines whose
1-based index is in the given set, preserves every other line
byte-for-byte and in its original order (the kept lines are the
enumerated lines filtered on their number, re-joined), returns the count
of deleted lines, and leaves the file entirely unwritten (result `none`)
when no line number in the set matches an existing line. -/
theorem c10_remove_commented_lines (text : List Char) (nums : List Nat) :
    (remove_commented_lines text nums).2 =
        ((List.enumFrom 1 (splitKeepL text)).filter
          (fun p => p.1 ∈ nums)).length ∧
      ((remove_commented_lines text nums).2 = 0 →
        (remove_commented_lines text nums).1 = none) ∧
      ((remove_commented_lines text nums).2 ≠ 0 →
        (remove_commented_lines text nums).1 =
          some (((List.enumFrom 1 (splitKeepL text)).filter
            (fun p => p.1 ∉ nums)).map (·.2)).flatten) := by
  unfold remove_commented_lines
  by_cases he : text.isEmpty = true
  · have hsplit : splitKeepL text = [] := by
      rcases text with _ | ⟨c, cs⟩
      · rfl
      · simp [List.isEmpty] at he
    rw [hsplit]
    simp [he]
  · simp only [he, Bool.false_eq_true, if_false]
    rw [rclGo_spec]
    refine ⟨rfl, ?_, ?_⟩
    · intro h
      simp only at h
      simp [h]
    · intro h
      simp only at h
      simp [h]

end CabinetIsolation

namespace CabinetIsolation

/-! ### `clean_commented_refs.clean_commented_block` (claim C6) -/

/-- The backward loop: from `idx` (0-based), step back over commented
lines, stopping below a non-commented line, below a line whose stripped
text is exactly `//` or empty (block separator), or at the top of the
file.  Returns the 0-based index of the first line of the block. -/
def ccbBack (lines : List (List Char)) : Nat → Nat
  | 0 => 0
  | j + 1 =>
    let prev := lines.getD j []
    if is_line_commented prev then
      (if stripL prev = strL "//" ∨ stripL prev = [] then j + 1
       else ccbBack lines j)
    else j + 1

/-- The forward loop: from a 0-based index, collect the 1-based numbers
of the contiguous commented lines, stopping at the first line that is
not commented. -/
def ccbFwdGo : List (List Char) → Nat → List Nat
  | [], _ => []
  | l :: ls, i =>
    if is_line_commented l then (i + 1) :: ccbFwdGo ls (i + 1) else []

/-- `clean_commented_block(filepath, start_line)`: the full commented
block around the (1-based) `start_line`, as a list of 1-based line
numbers. -/
def clean_commented_block (text : List Char) (startLine : Nat) : List Nat :=
  if text.isEmpty then []
  else
    let lines := splitLinesL text
    let idx := ccbBack lines (startLine - 1)
    ccbFwdGo (lines.drop idx) idx

theorem ccbBack_succ (lines : List (List Char)) (j : Nat) :
    ccbBack lines (j + 1) =
      if is_line_commented (lines.getD j []) then
        (if stripL (lines.getD j []) = strL "//" ∨
            stripL (lines.getD j []) = [] then j + 1
         else ccbBack lines j)
      else j + 1 := rfl

theorem ccbBack_le (lines : List (List Char)) :
    ∀ j : Nat, ccbBack lines j ≤ j := by
  intro j
  induction j with
  | zero => exact Nat.le_refl 0
  | succ j ih =>
    rw [ccbBack_succ]
    split
    · split
      · exact Nat.le_refl _
      · exact Nat.le_succ_of_le ih
    · exact Nat.le_refl _

theorem ccbBack_commented (lines : List (List Char)) :
    ∀ j k : Nat, ccbBack lines j ≤ k → k < j →
      is_line_commented (lines.getD k []) = true := by
  intro j
  induction j with
  | zero => intro k _ hk; omega
  | succ j ih =>
    intro k hle hk
    rw [ccbBack_succ] at hle
    rcases hcp : is_line_commented (lines.getD j []) with _ | _
    · rw [hcp] at hle
      simp only [Bool.false_eq_true, if_false] at hle
      omega
    · rw [hcp] at hle
      simp only [if_true] at hle
      by_cases hsep : stripL (lines.getD j []) = strL "//" ∨
          stripL (lines.getD j []) = []
      · rw [if_pos hsep] at hle
        omega
      · rw [if_neg hsep] at hle
        by_cases hkj : k < j
        · exact ih k hle hkj
        · have : k = j := by omega
          rw [this]
          exact hcp

theorem ccbBack_bdry (lines : List (List Char)) :
    ∀ j : Nat, ccbBack lines j = 0 ∨
      is_line_commented (lines.getD (ccbBack lines j - 1) []) = false ∨
      stripL (lines.getD (ccbBack lines j - 1) []) = strL "//" ∨
      stripL (lines.getD (ccbBack lines j - 1) []) = [] := by
  intro j
  induction j with
  | zero => exact Or.inl rfl
  | succ j ih =>
    rw [ccbBack_succ]
    rcases hcp : is_line_commented (lines.getD j []) with _ | _
    · simp only [Bool.false_eq_true, if_false, Nat.add_sub_cancel]
      exact Or.inr (Or.inl hcp)
    · simp only [if_true]
      by_cases hsep : stripL (lines.getD j []) = strL "//" ∨
          stripL (lines.getD j []) = []
      · rw [if_pos hsep]
        simp only [Nat.add_sub_cancel]
        rcases hsep with h | h
        · exact Or.inr (Or.inr (Or.inl h))
        · exact Or.inr (Or.inr (Or.inr h))
      · rw [if_neg hsep]
        exact ih

theorem ccbFwdGo_range :
    ∀ (ls : List (List Char)) (i : Nat),
      ccbFwdGo ls i =
        List.range' (i + 1) ((ls.takeWhile is_line_commented).length) := by
  intro ls
  induction ls with
  | nil => intro i; rfl
  | cons l ls ih =>
    intro i
    show (if is_line_commented l then (i + 1) :: ccbFwdGo ls (i + 1)
      else []) = _
    rcases hc : is_line_commented l with _ | _
    · simp [List.takeWhile_cons, hc]
    · simp only [if_true, List.takeWhile_cons, hc, List.length_cons]
      rw [ih (i + 1)]
      rfl

end CabinetIsolation

namespace CabinetIsolation

theorem takeWhile_getD_true {α : Type} (p : α → Bool) (d : α) :
    ∀ (ls : List α) (k : Nat), k < (ls.takeWhile p).length →
      p (ls.getD k d) = true := by
  intro ls
  induction ls with
  | nil => intro k hk; simp at hk
  | cons l ls ih =>
    intro k hk
    rcases hp : p l with _ | _
    · rw [List.takeWhile_cons, hp] at hk
      simp at hk
    · rw [List.takeWhile_cons, hp] at hk
      cases k with
      | zero => simpa using hp
      | succ k =>
        rw [List.getD_cons_succ]
        exact ih k (by simpa using hk)

theorem takeWhile_stop {α : Type} (p : α → Bool) (d : α) :
    ∀ ls : List α, (ls.takeWhile p).length < ls.length →
      p (ls.getD (ls.takeWhile p).length d) = false := by
  intro ls
  induction ls with
  | nil => intro h; simp at h
  | cons l ls ih =>
    intro h
    rcases hp : p l with _ | _
    · rw [List.takeWhile_cons, hp]
      simpa using hp
    · rw [List.takeWhile_cons, hp] at h ⊢
      simp only [List.length_cons, List.getD_cons_succ]
      exact ih (by simpa using h)

theorem takeWhile_len_le {α : Type} (p : α → Bool) :
    ∀ ls : List α, (ls.takeWhile p).length ≤ ls.length := by
  intro ls
  induction ls with
  | nil => simp
  | cons l ls ih =>
    rcases hp : p l with _ | _ <;> simp [List.takeWhile_cons, hp]
    exact ih

theorem takeWhile_len_ge {α : Type} (p : α → Bool) (d : α) :
    ∀ (ls : List α) (m : Nat), m ≤ ls.length →
      (∀ k, k < m → p (ls.getD k d) = true) →
      m ≤ (ls.takeWhile p).length := by
  intro ls
  induction ls with
  | nil => intro m hm _; simpa using hm
  | cons l ls ih =>
    intro m hm hall
    cases m with
    | zero => exact Nat.zero_le _
    | succ m =>
      have hp : p l = true := by simpa using hall 0 (Nat.succ_pos m)
      simp only [List.takeWhile_cons, hp, if_true, List.length_cons]
      have : m ≤ (ls.takeWhile p).length := by
        refine ih m (by simpa using hm) ?_
        intro k hk
        simpa using hall (k + 1) (by omega)
      omega

theorem getD_drop {α : Type} (d : α) :
    ∀ (ls : List α) (n m : Nat), (ls.drop n).getD m d = ls.getD (n + m) d := by
  intro ls
  induction ls with
  | nil => intro n m; simp
  | cons l ls ih =>
    intro n m
    cases n with
    | zero => simp
    | succ n =>
      rw [List.drop_succ_cons, ih n m]
      rw [show n + 1 + m = (n + m) + 1 from by omega, List.getD_cons_succ]

end CabinetIsolation

namespace CabinetIsolation

/-- C6 counterexample: from a matched commented line, the forward
extension does NOT stop at a comment line containing nothing but the
marker — with lines `// a`, `//`, `// b` and matched line 1 the code
returns the whole group `[1, 2, 3]`, although the claim requires it to
stop before the bare `//` of line 2 in both directions. -/
theorem c6_counterexample :
    clean_commented_block (strL "// a\n//\n// b") 1 = [1, 2, 3] ∧
      stripL (strL "//") = strL "//" ∧
      is_line_commented (strL "//") = true := by
  refine ⟨by decide, by decide, by decide⟩

/-- C6 (amended): writing `lines` for the split text and
`lo := ccbBack lines (start-1)` for the backward-scan result, the group
returned by `clean_commented_block` is the contiguous 1-based interval
that starts at `lo + 1`, contains the matched line, consists solely of
comment-marked lines, whose backward boundary is the top of file, a
non-comment (in particular blank) line, or a line that is exactly the
bare marker `//` — while forward the group extends over ALL contiguous
comment lines, bare `//` lines included, stopping only at the end of
file or the first non-comment line. -/
theorem c6_amended (text : List Char) (start : Nat) (h1 : 1 ≤ start)
    (h2 : start ≤ (splitLinesL text).length)
    (hc : is_line_commented ((splitLinesL text).getD (start - 1) [])
      = true) :
    start ∈ clean_commented_block text start ∧
      (ccbBack (splitLinesL text) (start - 1) + 1)
        ∈ clean_commented_block text start ∧
      (∀ n ∈ clean_commented_block text start,
        1 ≤ n ∧ n ≤ (splitLinesL text).length ∧
        is_line_commented ((splitLinesL text).getD (n - 1) []) = true) ∧
      (∀ m n k : Nat, m ∈ clean_commented_block text start →
        n ∈ clean_commented_block text start → m ≤ k → k ≤ n →
        k ∈ clean_commented_block text start) ∧
      (ccbBack (splitLinesL text) (start - 1) = 0 ∨
        is_line_commented ((splitLinesL text).getD
          (ccbBack (splitLinesL text) (start - 1) - 1) []) = false ∨
        stripL ((splitLinesL text).getD
          (ccbBack (splitLinesL text) (start - 1) - 1) []) = strL "//" ∨
        stripL ((splitLinesL text).getD
          (ccbBack (splitLinesL text) (start - 1) - 1) []) = []) ∧
      (ccbBack (splitLinesL text) (start - 1)
          + (clean_commented_block text start).length
            = (splitLinesL text).length ∨
        is_line_commented ((splitLinesL text).getD
          (ccbBack (splitLinesL text) (start - 1)
            + (clean_commented_block text start).length) []) = false) := by
  have hne : text.isEmpty = false := by
    rcases text with _ | ⟨c, cs⟩
    · simp [splitLinesL] at h2
      omega
    · rfl
  set lines := splitLinesL text with hlines
  set lo := ccbBack lines (start - 1) with hlo
  have hB : clean_commented_block text start =
      List.range' (lo + 1)
        (((lines.drop lo).takeWhile is_line_commented).length) := by
    unfold clean_commented_block
    rw [hne]
    simp only [Bool.false_eq_true, if_false]
    rw [ccbFwdGo_range]
  set flen := ((lines.drop lo).takeWhile is_line_commented).length
    with hflen
  have hlole : lo ≤ start - 1 := ccbBack_le lines (start - 1)
  have hdlen : (lines.drop lo).length = lines.length - lo := by
    simp
  have hflen_ge : start - lo ≤ flen := by
    rw [hflen]
    refine takeWhile_len_ge is_line_commented [] (lines.drop lo)
      (start - lo) (by omega) ?_
    intro k hk
    rw [getD_drop]
    by_cases hks : lo + k < start - 1
    · exact ccbBack_commented lines (start - 1) (lo + k) (by omega) hks
    · have : lo + k = start - 1 := by omega
      rw [this]
      exact hc
  have hflen_le : flen ≤ lines.length - lo := by
    rw [hflen, ← hdlen]
    exact takeWhile_len_le _ _
  refine ⟨?_, ?_, ?_, ?_, ?_, ?_⟩
  · rw [hB, List.mem_range'_1]
    omega
  · rw [hB, List.mem_range'_1]
    omega
  · intro n hn
    rw [hB, List.mem_range'_1] at hn
    refine ⟨by omega, by omega, ?_⟩
    have hk : n - 1 - lo < flen := by omega
    have := takeWhile_getD_true is_line_commented [] (lines.drop lo)
      (n - 1 - lo) hk
    rw [getD_drop] at this
    rw [show lo + (n - 1 - lo) = n - 1 from by omega] at this
    exact this
  · intro m n k hm hn hmk hkn
    rw [hB, List.mem_range'_1] at *
    omega
  · exact ccbBack_bdry lines (start - 1)
  · rw [hB]
    simp only [List.length_range']
    by_cases hfull : flen = lines.length - lo
    · left
      omega
    · right
      have hlt : flen < (lines.drop lo).length := by
        rw [hdlen]
        omega
      have := takeWhile_stop is_line_commented [] (lines.drop lo) hlt
      rw [getD_drop] at this
      exact this

/-- Witness for `c6_amended`: the backward scan stops below a bare `//`
line while the forward scan runs through commented lines. -/
theorem c6_witness :
    (1 : Nat) ≤ 3 ∧ 3 ≤ (splitLinesL (strL "//\n// a\n// ref")).length ∧
      is_line_commented
        ((splitLinesL (strL "//\n// a\n// ref")).getD 2 []) = true ∧
      3 ∈ clean_commented_block (strL "//\n// a\n// ref") 3 ∧
      (ccbBack (splitLinesL (strL "//\n// a\n// ref")) 2 + 1)
        ∈ clean_commented_block (strL "//\n// a\n// ref") 3 := by
  have h := c6_amended (strL "//\n// a\n// ref") 3 (by decide) (by decide)
    (by decide)
  exact ⟨by decide, by decide, by decide, h.1, h.2.1⟩

end CabinetIsolation

namespace CabinetIsolation

/-! ### The pruning executor of `cleanup_orphans.main` (claims C5, C7) -/

/-- One cabinet's run of `cleanup_orphans.main`: the document set after
the run, the orphan list as printed in the report (`✗ …` lines), and the
files actually deleted. -/
structure CORun where
  objs : List Doc
  reportOrphans : List Name
  deleted : List Name
  deriving DecidableEq

/-- `cleanup_orphans.main` for one cabinet: collect the referenced set,
report `all files − referenced` as orphans, and, in delete mode only,
unlink each orphan that exists. -/
def cleanup_orphans_run (deleteMode : Bool) (mnemoTexts : List (List Char))
    (objDocs : List Doc) (cab : Name) : CORun :=
  let referenced := collect_referenced_files cab mnemoTexts objDocs
  let orphans := sortNames
    ((objDocs.map (·.1)).dedup.filter (fun r => r ∉ referenced))
  let fin := orphans.foldl
    (fun st orph =>
      if deleteMode ∧ orph ∈ st.1.map (·.1) then
        (st.1.filter (fun d => ¬ d.1 = orph), st.2 ++ [orph])
      else st)
    (objDocs, ([] : List Name))
  { objs := fin.1, reportOrphans := orphans, deleted := fin.2 }

theorem crfPass_congr (pfx : Name) (docs1 docs2 : List Doc)
    (ref : List Name)
    (hagree : ∀ k ∈ ref, List.lookup k docs2 = List.lookup k docs1) :
    crfPass docs2 pfx ref = crfPass docs1 pfx ref := by
  unfold crfPass
  have gen : ∀ (l : List Name), (∀ k ∈ l, List.lookup k docs2
      = List.lookup k docs1) → ∀ (acc : List Name),
      l.foldl (fun acc rel =>
          match List.lookup rel docs2 with
          | some t => supdate acc (crfRefs t pfx)
          | none => acc) acc =
        l.foldl (fun acc rel =>
          match List.lookup rel docs1 with
          | some t => supdate acc (crfRefs t pfx)
          | none => acc) acc := by
    intro l
    induction l with
    | nil => intro _ acc; rfl
    | cons x xs ih =>
      intro hl acc
      show xs.foldl _ (match List.lookup x docs2 with
          | some t => supdate acc (crfRefs t pfx)
          | none => acc) = xs.foldl _ (match List.lookup x docs1 with
          | some t => supdate acc (crfRefs t pfx)
          | none => acc)
      rw [hl x (List.mem_cons_self x xs)]
      exact ih (fun k hk => hl k (List.mem_cons_of_mem x hk)) _
  exact gen ref hagree ref

theorem crfLoop_congr (pfx : Name) (docs1 docs2 : List Doc) :
    ∀ (fuel : Nat) (ref : List Name) (prev : Int),
      (∀ k ∈ crfLoop docs1 pfx fuel ref prev,
        List.lookup k docs2 = List.lookup k docs1) →
      crfLoop docs2 pfx fuel ref prev = crfLoop docs1 pfx fuel ref prev := by
  intro fuel
  induction fuel with
  | zero => intro ref prev _; rfl
  | succ fuel ih =>
    intro ref prev hagree
    have hunf1 : crfLoop docs1 pfx (fuel + 1) ref prev =
        (if (ref.length : Int) ≠ prev then
          crfLoop docs1 pfx fuel (crfPass docs1 pfx ref) (ref.length : Int)
        else ref) := rfl
    have hunf2 : crfLoop docs2 pfx (fuel + 1) ref prev =
        (if (ref.length : Int) ≠ prev then
          crfLoop docs2 pfx fuel (crfPass docs2 pfx ref) (ref.length : Int)
        else ref) := rfl
    by_cases hcond : (ref.length : Int) ≠ prev
    · rw [hunf1, if_pos hcond] at hagree ⊢
      have hrefsub : ref ⊆ crfLoop docs1 pfx fuel (crfPass docs1 pfx ref)
          (ref.length : Int) :=
        (subset_crfPass docs1 pfx ref).trans (crfLoop_subset docs1 pfx _ _ _)
      have hpass : crfPass docs2 pfx ref = crfPass docs1 pfx ref :=
        crfPass_congr pfx docs1 docs2 ref
          (fun k hk => hagree k (hrefsub hk))
      rw [hunf2, if_pos hcond, hpass]
      exact ih _ _ hagree
    · rw [hunf1, if_neg hcond]
      rw [hunf2, if_neg hcond]

theorem lookup_filter_key {p : Name → Bool} {k : Name} (hk : p k = true) :
    ∀ docs : List Doc,
      List.lookup k (docs.filter (fun d => p d.1)) = List.lookup k docs := by
  intro docs
  induction docs with
  | nil => rfl
  | cons d ds ih =>
    rcases hpd : p d.1 with _ | _
    · have hkd : (k == d.1) = false := by
        rcases hbe : k == d.1 with _ | _
        · rfl
        · have : k = d.1 := eq_of_beq hbe
          rw [← this, hk] at hpd
          cases hpd
      rw [List.filter_cons, hpd]
      simp only [Bool.false_eq_true, if_false]
      rw [ih, List.lookup_cons, hkd]
    · rw [List.filter_cons, hpd]
      simp only [if_true]
      rw [List.lookup_cons, List.lookup_cons]
      rcases hbe : k == d.1 with _ | _
      · exact ih
      · rfl

end CabinetIsolation

namespace CabinetIsolation

/-- The deletion fold of `cleanup_orphans.main` removes exactly the
documents whose key is among the orphans. -/
theorem co_fold_objs :
    ∀ (orphans : List Name) (docs : List Doc) (acc : List Name),
      (orphans.foldl
        (fun st orph =>
          if (true : Bool) = true ∧ orph ∈ st.1.map (·.1) then
            (st.1.filter (fun d => ¬ d.1 = orph), st.2 ++ [orph])
          else st)
        (docs, acc)).1 = docs.filter (fun d => ¬ d.1 ∈ orphans) := by
  intro orphans
  induction orphans with
  | nil =>
    intro docs acc
    simp
  | cons o os ih =>
    intro docs acc
    by_cases hmem : o ∈ docs.map (·.1)
    · rw [List.foldl_cons, if_pos ⟨rfl, hmem⟩, ih]
      rw [List.filter_filter]
      refine List.filter_congr ?_
      intro d _
      by_cases h1 : d.1 = o <;> by_cases h2 : d.1 ∈ os <;>
        simp [h1, h2]
    · rw [List.foldl_cons, if_neg (fun hand => hmem hand.2), ih]
      refine List.filter_congr ?_
      intro d hd
      have hdo : ¬ d.1 = o := by
        intro heq
        exact hmem (List.mem_map.mpr ⟨d, hd, heq⟩)
      simp [hdo]

/-- In delete mode, when the orphan list is duplicate-free and all its
entries exist, the deletion fold deletes exactly the listed orphans. -/
theorem co_fold_deleted :
    ∀ (orphans : List Name) (docs : List Doc) (acc : List Name),
      orphans.Nodup → (∀ o ∈ orphans, o ∈ docs.map (·.1)) →
      (orphans.foldl
        (fun st orph =>
          if (true : Bool) = true ∧ orph ∈ st.1.map (·.1) then
            (st.1.filter (fun d => ¬ d.1 = orph), st.2 ++ [orph])
          else st)
        (docs, acc)).2 = acc ++ orphans := by
  intro orphans
  induction orphans with
  | nil => intro docs acc _ _; simp
  | cons o os ih =>
    intro docs acc hnd hall
    have hmem : o ∈ docs.map (·.1) := hall o (List.mem_cons_self o os)
    rw [List.foldl_cons, if_pos ⟨rfl, hmem⟩]
    rw [ih _ _ (List.Nodup.of_cons hnd) ?_]
    · simp
    · intro o2 ho2
      have ho2d : o2 ∈ docs.map (·.1) := hall o2 (List.mem_cons_of_mem o ho2)
      rcases List.mem_map.mp ho2d with ⟨d, hd, rfl⟩
      refine List.mem_map.mpr ⟨d, ?_, rfl⟩
      refine List.mem_filter.mpr ⟨hd, ?_⟩
      have : ¬ d.1 = o := by
        intro heq
        rw [heq] at ho2
        exact (List.nodup_cons.mp hnd).1 ho2
      simp [this]

end CabinetIsolation

namespace CabinetIsolation

theorem insertName_nodup {x : Name} :
    ∀ {l : List Name}, x ∉ l → l.Nodup → (insertName x l).Nodup := by
  intro l
  induction l with
  | nil => intro _ _; simp [insertName]
  | cons y ys ih =>
    intro hx hnd
    show (if ltName x y then x :: y :: ys else y :: insertName x ys).Nodup
    by_cases hlt : ltName x y = true
    · rw [if_pos hlt]
      exact List.nodup_cons.mpr ⟨hx, hnd⟩
    · rw [if_neg hlt]
      refine List.nodup_cons.mpr ⟨?_, ?_⟩
      · intro hy
        rcases mem_insertName.mp hy with rfl | hy2
        · exact hx (List.mem_cons_self _ _)
        · exact (List.nodup_cons.mp hnd).1 hy2
      · exact ih (fun h => hx (List.mem_cons_of_mem y h))
          (List.nodup_cons.mp hnd).2

theorem sortNames_nodup : ∀ {l : List Name}, l.Nodup → (sortNames l).Nodup := by
  intro l
  induction l with
  | nil => intro _; simp [sortNames]
  | cons y ys ih =>
    intro hnd
    show (insertName y (sortNames ys)).Nodup
    refine insertName_nodup ?_ (ih (List.nodup_cons.mp hnd).2)
    intro hy
    exact (List.nodup_cons.mp hnd).1 (mem_sortNames.mp hy)

/-- C7 (amended, part for `cleanup_orphans.main`): running the orphan
deletion twice is idempotent — the second run reports no orphans,
deletes nothing and leaves the surviving documents untouched.  (The
executor of `clean_commented_refs.main` is not idempotent; see the
counterexample.) -/
theorem c7_amended (mnemoTexts : List (List Char)) (objDocs : List Doc)
    (cab : Name) :
    (cleanup_orphans_run true mnemoTexts
        (cleanup_orphans_run true mnemoTexts objDocs cab).objs
        cab).reportOrphans = [] ∧
      (cleanup_orphans_run true mnemoTexts
        (cleanup_orphans_run true mnemoTexts objDocs cab).objs
        cab).deleted = [] ∧
      (cleanup_orphans_run true mnemoTexts
        (cleanup_orphans_run true mnemoTexts objDocs cab).objs
        cab).objs = (cleanup_orphans_run true mnemoTexts objDocs cab).objs := by
  set pfx := strL "objects_" ++ cab with hpfx
  set ref := collect_referenced_files cab mnemoTexts objDocs with href
  set orphans := sortNames
    ((objDocs.map (·.1)).dedup.filter (fun r => r ∉ ref)) with horph
  have hrun1objs : (cleanup_orphans_run true mnemoTexts objDocs cab).objs
      = objDocs.filter (fun d => ¬ d.1 ∈ orphans) := by
    show (orphans.foldl
      (fun st orph =>
        if (true : Bool) = true ∧ orph ∈ st.1.map (·.1) then
          (st.1.filter (fun d => ¬ d.1 = orph), st.2 ++ [orph])
        else st)
      (objDocs, ([] : List Name))).1 = _
    exact co_fold_objs orphans objDocs []
  have hrun1objs2 : (cleanup_orphans_run true mnemoTexts objDocs cab).objs
      = objDocs.filter (fun d => d.1 ∈ ref) := by
    rw [hrun1objs]
    refine List.filter_congr ?_
    intro d hd
    have hdk : d.1 ∈ (objDocs.map (·.1)).dedup :=
      List.mem_dedup.mpr (List.mem_map.mpr ⟨d, hd, rfl⟩)
    have : d.1 ∈ orphans ↔ d.1 ∉ ref := by
      rw [horph, mem_sortNames, List.mem_filter]
      simp [hdk]
    by_cases hdr : d.1 ∈ ref
    · simp [this, hdr]
    · simp [this, hdr]
  have href2 : collect_referenced_files cab mnemoTexts
      (cleanup_orphans_run true mnemoTexts objDocs cab).objs = ref := by
    rw [hrun1objs2, href]
    show crfLoop (objDocs.filter (fun d => d.1 ∈ ref)) pfx 50
        (crfInit mnemoTexts pfx) (-1) = _
    refine crfLoop_congr pfx objDocs _ 50 (crfInit mnemoTexts pfx) (-1) ?_
    intro k hk
    have hkref : k ∈ ref := by
      rw [href]
      exact hk
    have : (fun d : Doc => decide (d.1 ∈ ref)) =
        (fun d : Doc => (fun r => decide (r ∈ ref)) d.1) := rfl
    exact lookup_filter_key (p := fun r => decide (r ∈ ref))
      (by simpa using hkref) objDocs
  have horph2 : ((cleanup_orphans_run true mnemoTexts objDocs
      cab).objs.map (·.1)).dedup.filter
        (fun r => r ∉ collect_referenced_files cab mnemoTexts
          (cleanup_orphans_run true mnemoTexts objDocs cab).objs) = [] := by
    rw [href2]
    rw [List.filter_eq_nil_iff]
    intro a ha
    rcases List.mem_map.mp (List.mem_dedup.mp ha) with ⟨d, hd, rfl⟩
    rw [hrun1objs2] at hd
    have := (List.mem_filter.mp hd).2
    simp only [decide_eq_true_eq] at this ⊢
    exact fun hno => hno this
  have hrep2 : (cleanup_orphans_run true mnemoTexts
      (cleanup_orphans_run true mnemoTexts objDocs cab).objs
      cab).reportOrphans = [] := by
    show sortNames _ = []
    rw [horph2]
    rfl
  refine ⟨hrep2, ?_, ?_⟩
  · show ((sortNames _).foldl _ (_, ([] : List Name))).2 = []
    rw [horph2]
    rfl
  · show ((sortNames _).foldl _ (_, ([] : List Name))).1 = _
    rw [horph2]
    rfl

end CabinetIsolation

namespace CabinetIsolation

/-! ### The pruning executor of `clean_commented_refs.main` (claims C5, C7) -/

/-- A source-file key: `(is-mnemo-file, name)` — the executor edits both
mnemo and object files when removing comment blocks. -/
abbrev SrcKey : Type := Bool × Name

/-- Mutable state of one cabinet's run: the two document trees, the
running count of removed lines, and the files deleted so far. -/
structure CCRState where
  mnemo : List Doc
  objs : List Doc
  removed : Nat
  deleted : List Name
  deriving DecidableEq

/-- Process one reported location of a comment orphan: in apply mode,
re-read the source file, compute the commented block around the line
and remove those lines (writing only when something was removed). -/
def ccrLoc (apply : Bool) (st : CCRState) (src : SrcKey) (lineNo : Nat) :
    CCRState :=
  if apply then
    match (if src.1 then List.lookup src.2 st.mnemo
        else List.lookup src.2 st.objs) with
    | none => st
    | some t =>
      let block := clean_commented_block t lineNo
      if block.isEmpty then st
      else
        let r := remove_commented_lines t block
        let st2 := match r.1 with
          | some t2 =>
            if src.1 then
              { st with mnemo := (st.mnemo.map (fun d : Doc => if d.1 = src.2 then (d.1, t2) else d)) }
            else
              { st with objs := (st.objs.map (fun d : Doc => if d.1 = src.2 then (d.1, t2) else d)) }
          | none => st
        { st2 with removed := st2.removed + r.2 }
  else st

/-- Process one comment orphan: clean its reported locations, then, in
apply mode, delete the file itself if it still exists. -/
def ccrRel (apply : Bool) (locs : List (SrcKey × Nat)) (rel : Name)
    (st : CCRState) : CCRState :=
  let st2 := locs.foldl (fun acc e => ccrLoc apply acc e.1 e.2) st
  if rel ∈ st2.objs.map (·.1) ∧ apply then
    { st2 with objs := (st2.objs.filter (fun d => ¬ d.1 = rel)), deleted := st2.deleted ++ [rel] }
  else st2

/-- Process one pure orphan: in apply mode, delete it if it exists. -/
def ccrPure (apply : Bool) (rel : Name) (st : CCRState) : CCRState :=
  if rel ∈ st.objs.map (·.1) ∧ apply then
    { st with objs := (st.objs.filter (fun d => ¬ d.1 = rel)), deleted := st.deleted ++ [rel] }
  else st

/-- Result of one cabinet's run of `clean_commented_refs.main`. -/
structure CCRRun where
  mnemo : List Doc
  objs : List Doc
  deleted : List Name
  removedLines : Nat
  reportFiles : List Name
  deriving DecidableEq

/-- `clean_commented_refs.main` for one cabinet: classify with
`find_comment_orphans`, then walk the sorted comment orphans (cleaning
their commented blocks and deleting the files) and the sorted pure
orphans (deleting the files); every mutation is guarded by `apply`.
`reportFiles` lists the orphan files printed in the report, in print
order. -/
def clean_commented_refs_run (apply : Bool) (mnemoDocs objDocs : List Doc)
    (cab : Name) : CCRRun :=
  let fco := find_comment_orphans mnemoDocs objDocs cab
  let co := sortNames fco.commentOnly
  let po := sortNames fco.pureOrphans
  let st0 : CCRState := ⟨mnemoDocs, objDocs, 0, []⟩
  let st1 := co.foldl
    (fun st rel => ccrRel apply
      ((fco.orphanLocs.filter (fun e => e.1 = rel)).map
        (fun e => (e.2.1, e.2.2.1)))
      rel st)
    st0
  let st2 := po.foldl (fun st rel => ccrPure apply rel st) st1
  { mnemo := st2.mnemo, objs := st2.objs, deleted := st2.deleted,
    removedLines := st2.removed, reportFiles := co ++ po }

/-- C7 counterexample: the executor of `clean_commented_refs.main` is
not idempotent.  `F.xml` is a pure orphan whose text actively references
`G.xml`; the initial scan counts active references from every file —
orphans included — so run 1 keeps `G.xml` and deletes only `F.xml`.  On
the pruned set, run 2 finds `G.xml` orphaned and deletes it: the second
run performs a further deletion. -/
theorem c7_counterexample :
    (clean_commented_refs_run true []
        [(strL "F.xml",
          strL "ChildPanelOnRelativ(\"objects/objects_C/G.xml\")"),
          (strL "G.xml", strL "")] (strL "C")).deleted = [strL "F.xml"] ∧
      (clean_commented_refs_run true []
        (clean_commented_refs_run true []
          [(strL "F.xml",
            strL "ChildPanelOnRelativ(\"objects/objects_C/G.xml\")"),
            (strL "G.xml", strL "")] (strL "C")).objs
        (strL "C")).deleted = [strL "G.xml"] := by
  refine ⟨by decide, by decide⟩

end CabinetIsolation

namespace CabinetIsolation

/-! ### Dry-run behaviour of the two gated executors (claim C5) -/

theorem ccrPure_false (rel : Name) (st : CCRState) :
    ccrPure false rel st = st := by
  unfold ccrPure
  rw [if_neg (fun hand => by simpa using hand.2)]

theorem ccr_foldPure_false :
    ∀ (rels : List Name) (st : CCRState),
      rels.foldl (fun st rel => ccrPure false rel st) st = st := by
  intro rels
  induction rels with
  | nil => intro st; rfl
  | cons r rs ih =>
    intro st
    rw [List.foldl_cons, ccrPure_false]
    exact ih st

theorem keys_map_update (objs : List Doc) (k : Name) (t2 : List Char) :
    (objs.map (fun d : Doc => if d.1 = k then (d.1, t2) else d)).map (·.1)
      = objs.map (·.1) := by
  rw [List.map_map]
  refine List.map_congr_left ?_
  intro d _
  by_cases h : d.1 = k <;> simp [h]

theorem keys_filter_ne (objs : List Doc) (rel : Name) :
    (objs.filter (fun d => ¬ d.1 = rel)).map (·.1)
      = (objs.map (·.1)).filter (fun k => ¬ k = rel) := by
  induction objs with
  | nil => rfl
  | cons d ds ih =>
    by_cases h : d.1 = rel <;>
      simp only [List.filter_cons, List.map_cons, h, decide_not,
        decide_True, decide_False, Bool.not_true, Bool.not_false,
        Bool.false_eq_true, if_false, if_true, List.map_cons] <;>
      rw [show (fun (d : Doc) => !decide (d.1 = rel))
          = (fun (d : Doc) => decide ¬ d.1 = rel) by
            funext d; rw [decide_not],
        show (fun (k : Name) => !decide (k = rel))
          = (fun (k : Name) => decide ¬ k = rel) by
            funext k; rw [decide_not]] <;>
      rw [ih]

end CabinetIsolation

namespace CabinetIsolation

theorem co_fold_false :
    ∀ (orphans : List Name) (docs : List Doc) (acc : List Name),
      (orphans.foldl
        (fun st orph =>
          if (false : Bool) = true ∧ orph ∈ st.1.map (·.1) then
            (st.1.filter (fun d => ¬ d.1 = orph), st.2 ++ [orph])
          else st)
        (docs, acc)) = (docs, acc) := by
  intro orphans
  induction orphans with
  | nil => intro docs acc; rfl
  | cons o os ih =>
    intro docs acc
    rw [List.foldl_cons, if_neg (fun hand => by simpa using hand.1)]
    exact ih docs acc

theorem ccrPure_true (rel : Name) (st : CCRState)
    (hmem : rel ∈ st.objs.map (·.1)) :
    ((ccrPure true rel st).objs.map (·.1)
        = (st.objs.map (·.1)).filter (fun k => ¬ k = rel)) ∧
      ((ccrPure true rel st).deleted = st.deleted ++ [rel]) := by
  unfold ccrPure
  rw [if_pos ⟨hmem, rfl⟩]
  exact ⟨keys_filter_ne st.objs rel, rfl⟩


theorem ccr_pureFold_true :
    ∀ (rels : List Name) (st : CCRState),
      rels.Nodup → (∀ r ∈ rels, r ∈ st.objs.map (·.1)) →
      (((rels.foldl (fun st rel => ccrPure true rel st) st).objs.map (·.1)
          = (st.objs.map (·.1)).filter (fun k => ¬ k ∈ rels)) ∧
        ((rels.foldl (fun st rel => ccrPure true rel st) st).deleted
          = st.deleted ++ rels)) := by
  intro rels
  induction rels with
  | nil =>
    intro st _ _
    simp
  | cons r rs ih =>
    intro st hnd hall
    rw [List.foldl_cons]
    rcases ccrPure_true r st (hall r (List.mem_cons_self r rs)) with ⟨g1, g2⟩
    have hall2 : ∀ r2 ∈ rs, r2 ∈ (ccrPure true r st).objs.map (·.1) := by
      intro r2 hr2
      rw [g1]
      refine List.mem_filter.mpr ⟨hall r2 (List.mem_cons_of_mem r hr2), ?_⟩
      have : ¬ r2 = r := by
        intro heq
        rw [heq] at hr2
        exact (List.nodup_cons.mp hnd).1 hr2
      simpa using this
    rcases ih (ccrPure true r st) (List.Nodup.of_cons hnd) hall2
      with ⟨h1, h2⟩
    constructor
    · rw [h1, g1, List.filter_filter]
      refine List.filter_congr ?_
      intro k _
      by_cases e1 : k = r <;> by_cases e2 : k ∈ rs <;> simp [e1, e2]
    · rw [h2, g2, List.append_assoc]
      rfl

end CabinetIsolation

namespace CabinetIsolation

theorem fco_orphan_props (m o : List Doc) (cab : Name) :
    (find_comment_orphans m o cab).commentOnly.Nodup ∧
      (find_comment_orphans m o cab).pureOrphans.Nodup ∧
      (∀ r ∈ (find_comment_orphans m o cab).commentOnly,
        r ∈ o.map (·.1)) ∧
      (∀ r ∈ (find_comment_orphans m o cab).pureOrphans,
        r ∈ o.map (·.1)) ∧
      (∀ r ∈ (find_comment_orphans m o cab).commentOnly,
        r ∉ (find_comment_orphans m o cab).pureOrphans) := by
  refine ⟨?_, ?_, ?_, ?_, ?_⟩
  · show (((o.map (·.1)).dedup).filter _).Nodup
    exact List.Nodup.filter _ (List.nodup_dedup _)
  · show (((o.map (·.1)).dedup).filter _).Nodup
    exact List.Nodup.filter _ (List.nodup_dedup _)
  · intro r hr
    replace hr : r ∈ ((o.map (·.1)).dedup).filter _ := hr
    exact List.mem_dedup.mp (List.mem_filter.mp hr).1
  · intro r hr
    replace hr : r ∈ ((o.map (·.1)).dedup).filter _ := hr
    exact List.mem_dedup.mp (List.mem_filter.mp hr).1
  · intro r hr hr2
    have h1 := (List.mem_filter.mp
      (show r ∈ ((o.map (·.1)).dedup).filter
        (fun rel => rel ∉ fcoClosure o (strL "objects_" ++ cab)
            (fcoInit (m.map (fun d => (true, d))
              ++ o.map (fun d => (false, d)))
              (strL "objects_" ++ cab)) ∧
          rel ∈ (fcoCommented (m.map (fun d => (true, d))
            ++ o.map (fun d => (false, d)))
            (strL "objects_" ++ cab)).map (·.1)) from hr)).2
    have h2 := (List.mem_filter.mp
      (show r ∈ ((o.map (·.1)).dedup).filter
        (fun rel => rel ∉ fcoClosure o (strL "objects_" ++ cab)
            (fcoInit (m.map (fun d => (true, d))
              ++ o.map (fun d => (false, d)))
              (strL "objects_" ++ cab)) ∧
          rel ∉ (fcoCommented (m.map (fun d => (true, d))
            ++ o.map (fun d => (false, d)))
            (strL "objects_" ++ cab)).map (·.1)) from hr2)).2
    simp only [decide_eq_true_eq] at h1 h2
    exact h2.2 h1.2

end CabinetIsolation


namespace CabinetIsolation

theorem co_dryrun (mnemoTexts : List (List Char)) (objDocs : List Doc)
    (cab : Name) :
    (cleanup_orphans_run false mnemoTexts objDocs cab).objs = objDocs ∧
      (cleanup_orphans_run false mnemoTexts objDocs cab).deleted = [] ∧
      (cleanup_orphans_run false mnemoTexts objDocs cab).reportOrphans
        = (cleanup_orphans_run true mnemoTexts objDocs cab).deleted := by
  set ref := collect_referenced_files cab mnemoTexts objDocs with href
  set orphans := sortNames
    ((objDocs.map (·.1)).dedup.filter (fun r => r ∉ ref)) with horph
  have hnd : orphans.Nodup := by
    rw [horph]
    exact sortNames_nodup (List.Nodup.filter _ (List.nodup_dedup _))
  have hall : ∀ o2 ∈ orphans, o2 ∈ objDocs.map (·.1) := by
    intro o2 ho2
    rw [horph, mem_sortNames] at ho2
    exact List.mem_dedup.mp (List.mem_filter.mp ho2).1
  refine ⟨?_, ?_, ?_⟩
  · show (orphans.foldl
      (fun st orph =>
        if (false : Bool) = true ∧ orph ∈ st.1.map (·.1) then
          (st.1.filter (fun d => ¬ d.1 = orph), st.2 ++ [orph])
        else st)
      (objDocs, ([] : List Name))).1 = objDocs
    rw [co_fold_false]
  · show (orphans.foldl
      (fun st orph =>
        if (false : Bool) = true ∧ orph ∈ st.1.map (·.1) then
          (st.1.filter (fun d => ¬ d.1 = orph), st.2 ++ [orph])
        else st)
      (objDocs, ([] : List Name))).2 = []
    rw [co_fold_false]
  · show orphans = (orphans.foldl
      (fun st orph =>
        if (true : Bool) = true ∧ orph ∈ st.1.map (·.1) then
          (st.1.filter (fun d => ¬ d.1 = orph), st.2 ++ [orph])
        else st)
      (objDocs, ([] : List Name))).2
    rw [co_fold_deleted orphans objDocs [] hnd hall]
    rfl


end CabinetIsolation

namespace CabinetIsolation

/-! ### The ungated executor of `cleanup_classes.main` (claim C5) -/

/-- Consume a literal: if `lit` is a prefix of `l`, the rest of `l`. -/
def litStep (lit l : List Char) : Option (List Char) :=
  if headMatches lit l then some (l.drop lit.length) else none

/-- Consume `\s*` (greedy; the following literals never start with a
whitespace character, so no backtracking can occur). -/
def afterWs (l : List Char) : List Char := l.dropWhile pySpace

/-- Match one `cleanup_classes` pattern
`if\s*\(\s*settings\s*\[\s*Q struct Q\s*\]\s*==\s*Q(\w+)Q\s*\)` at the
head of `l`, where `Q` is the quote of the dialect (`&quot;`, `"` or
`\"`); returns the match length and the captured class name.  `\w+` is
greedy and `Q` never starts with a word character, so the maximal word
run is the only candidate. -/
def ifStructMatchAt (q l : List Char) : Option (Nat × Name) :=
  (litStep (strL "if") l).bind fun r =>
  (litStep (strL "(") (afterWs r)).bind fun r =>
  (litStep (strL "settings") (afterWs r)).bind fun r =>
  (litStep (strL "[") (afterWs r)).bind fun r =>
  (litStep q (afterWs r)).bind fun r =>
  (litStep (strL "struct") r).bind fun r =>
  (litStep q r).bind fun r =>
  (litStep (strL "]") (afterWs r)).bind fun r =>
  (litStep (strL "==") (afterWs r)).bind fun r =>
  (litStep q (afterWs r)).bind fun r =>
  (if (r.takeWhile wordChar).isEmpty then none
   else (litStep q (r.drop (r.takeWhile wordChar).length)).bind fun r2 =>
     (litStep (strL ")") (afterWs r2)).map fun r3 =>
       (l.length - r3.length, r.takeWhile wordChar))

/-- All `finditer` matches of one dialect: `(start, end, class name)`. -/
def ifStructMatches (q t : List Char) : List (Nat × Nat × Name) :=
  (scanAll (fun l => (ifStructMatchAt q l).map (fun p => (p.1, p)))
      t.length t 0).map
    (fun e => (e.1, e.1 + e.2.1, e.2.2))

/-- The scan from `m.end()` to the opening brace: skip runs of
` \t\r\n` and `//`-line comments (the inner `while` stops at the
newline, which the outer loop then consumes as whitespace). -/
def fbaGo : Nat → List Char → Nat → Nat
  | 0, _, j => j
  | fuel + 1, t, j =>
    match t[j]? with
    | none => j
    | some c =>
      if c = ' ' ∨ c = '\t' ∨ c = '\x0d' ∨ c = '\n' then fbaGo fuel t (j + 1)
      else if c = '/' ∧ t[j + 1]? = some '/' then
        fbaGo fuel t (j + ((t.drop j).takeWhile (fun c2 => ¬ c2 = '\n')).length)
      else j

/-- Turn one pattern match into the block to delete, if any: skip the
match when its class is available, when no `{` follows, or when
`find_matching_brace` fails; otherwise extend the span backward over
spaces/tabs and one newline before the `if`, and forward over
spaces/tabs/CRs and one newline after the `}`. -/
def ruBlockOf (t : List Char) (available : List Name)
    (m : Nat × Nat × Name) : Option (Nat × Nat × Name) :=
  if m.2.2 ∈ available then none
  else
    let j := fbaGo (t.length + 1) t m.2.1
    if t[j]? = some '{' then
      let be := find_matching_brace t j
      if be = -1 then none
      else
        let bs1 := m.1 -
          ((t.take m.1).reverse.takeWhile (fun c => c = ' ' ∨ c = '\t')).length
        let bs2 := if 0 < bs1 ∧ t[bs1 - 1]? = some '\n' then bs1 - 1 else bs1
        let be1 := be.toNat + 1 +
          ((t.drop (be.toNat + 1)).takeWhile
            (fun c => c = ' ' ∨ c = '\t' ∨ c = '\x0d')).length
        let be2 := if t[be1]? = some '\n' then be1 + 1 else be1
        some (bs2, be2, m.2.2)
    else none

/-- Stable insertion for the descending-by-start sort (`list.sort` with
`reverse=True` is stable; with equal starts the earlier block stays
first). -/
def insertDesc (x : Nat × Nat × Name) :
    List (Nat × Nat × Name) → List (Nat × Nat × Name)
  | [] => [x]
  | y :: ys => if y.1 < x.1 then x :: y :: ys else y :: insertDesc x ys

/-- `text[:s] + text[e:]`. -/
def removeRange (t : List Char) (s e : Nat) : List Char :=
  t.take s ++ t.drop e

/-- `cleanup_classes.remove_unused_class_blocks`: collect the blocks of
the three quote dialects (entity, plain, backslash — in that order),
sort them by start descending, drop blocks overlapping an already kept
one, then delete each kept block from the text; also returns the
removed class names in deletion order. -/
def remove_unused_class_blocks (t : List Char) (available : List Name) :
    List Char × List Name :=
  let blocks := (ifStructMatches (strL "&quot;") t
      ++ ifStructMatches (strL "\"") t
      ++ ifStructMatches (strL "\\\"") t).filterMap (ruBlockOf t available)
  if blocks.isEmpty then (t, [])
  else
    let sorted := blocks.foldl (fun acc b => insertDesc b acc) []
    let filtered := sorted.foldl
      (fun acc b =>
        if acc.any (fun f => decide (b.1 < f.2.1) && decide (f.1 < b.2.1))
        then acc else acc ++ [b])
      []
    filtered.foldl
      (fun st b => (removeRange st.1 b.1 b.2.1, st.2 ++ [b.2.2]))
      (t, [])

/-- The per-cabinet file loop of `cleanup_classes.main`: every object
file whose text mentions `struct` is passed through
`remove_unused_class_blocks` and — whenever anything was removed — the
new text is written back.  The function takes no apply/dry-run
parameter because `cleanup_classes.py` defines none: the write is
unconditional. -/
def cleanup_classes_run (objDocs : List Doc) (available : List Name) :
    List Doc :=
  objDocs.map (fun d : Doc =>
    if hasSub (strL "struct") d.2 then
      (if (remove_unused_class_blocks d.2 available).2.isEmpty then d
       else (d.1, (remove_unused_class_blocks d.2 available).1))
    else d)

/-- C5 counterexample: `cleanup_classes.main` is a pruning executor with
no apply/dry-run gate at all — on a document whose `if
(settings["struct"] == "Foo")` block names an unavailable class, the
run rewrites the document set unconditionally. -/
theorem c5_counterexample :
    cleanup_classes_run
      [(strL "a.xml",
        strL "aa\nif (settings[\"struct\"] == \"Foo\") \x7b x(); \x7d\nbb")]
      [] ≠
      [(strL "a.xml",
        strL "aa\nif (settings[\"struct\"] == \"Foo\") \x7b x(); \x7d\nbb")] := by
  decide

end CabinetIsolation

namespace CabinetIsolation

/-! ### The fallible executor of `clean_commented_refs.main` (claim C5)

The Python `clean_commented_block` indexes `lines[idx - 1]` in its
backward loop without a range check: when a recorded line number has
become stale (an earlier block removal shortened the file), the access
raises an unhandled `IndexError` that aborts `main` mid-run.  The
variants below return `none` on that error path. -/

/-- The backward loop of `clean_commented_block` with Python's real
indexing: each iteration with `idx > 0` reads `lines[idx - 1]`, and an
out-of-range read raises (`none`). -/
def ccbBackE (lines : List (List Char)) : Nat → Option Nat
  | 0 => some 0
  | j + 1 =>
    match lines[j]? with
    | none => none
    | some prev =>
      if is_line_commented prev then
        (if stripL prev = strL "//" ∨ stripL prev = [] then some (j + 1)
         else ccbBackE lines j)
      else some (j + 1)

/-- `clean_commented_block(filepath, start_line)` with the error path
kept: an empty (or unreadable) file still returns `[]` before any
indexing, but a stale 1-based `startLine` whose first backward access
`lines[startLine - 2]` is out of range crashes (`none`). -/
def clean_commented_blockE (text : List Char) (startLine : Nat) :
    Option (List Nat) :=
  if text.isEmpty then some []
  else
    (ccbBackE (splitLinesL text) (startLine - 1)).map
      (fun idx => ccbFwdGo ((splitLinesL text).drop idx) idx)

/-- On in-range start lines the fallible backward loop agrees with the
total one used by the block-extent theorems. -/
theorem ccbBackE_agrees (lines : List (List Char)) :
    ∀ j : Nat, j ≤ lines.length → ccbBackE lines j = some (ccbBack lines j) := by
  intro j
  induction j with
  | zero => intro _; rfl
  | succ j ih =>
    intro hj
    have hjlt : j < lines.length := Nat.lt_of_succ_le hj
    have hsome : lines[j]? = some (lines.getD j []) := by
      rw [List.getElem?_eq_getElem hjlt]
      rw [List.getD_eq_getElem lines [] hjlt]
    have hunf : ccbBackE lines (j + 1)
        = (match lines[j]? with
          | none => none
          | some prev =>
            if is_line_commented prev then
              (if stripL prev = strL "//" ∨ stripL prev = [] then some (j + 1)
               else ccbBackE lines j)
            else some (j + 1)) := rfl
    rw [hunf, hsome]
    show (if is_line_commented (lines.getD j []) then
        (if stripL (lines.getD j []) = strL "//" ∨
            stripL (lines.getD j []) = [] then some (j + 1)
         else ccbBackE lines j)
      else some (j + 1)) = some (ccbBack lines (j + 1))
    rw [ccbBack_succ]
    by_cases hc : is_line_commented (lines.getD j []) = true
    · by_cases hb : stripL (lines.getD j []) = strL "//" ∨
          stripL (lines.getD j []) = []
      · rw [if_pos hc, if_pos hb, if_pos hc, if_pos hb]
      · rw [if_pos hc, if_neg hb, if_pos hc, if_neg hb]
        exact ih (Nat.le_of_lt hjlt)
    · rw [if_neg hc, if_neg hc]

/-- On in-range start lines (`startLine ≤ lines + 1`, which includes
every line number of the current file) the fallible block computation
agrees with the total `clean_commented_block`. -/
theorem clean_commented_blockE_agrees (text : List Char) (startLine : Nat)
    (h : startLine ≤ (splitLinesL text).length + 1) :
    clean_commented_blockE text startLine
      = some (clean_commented_block text startLine) := by
  unfold clean_commented_blockE clean_commented_block
  by_cases he : text.isEmpty = true
  · rw [if_pos he, if_pos he]
  · rw [if_neg he, if_neg he]
    rw [ccbBackE_agrees (splitLinesL text) (startLine - 1)
      (by omega)]
    rfl

end CabinetIsolation

namespace CabinetIsolation

/-- `ccrLoc` with the error path kept: a crash of
`clean_commented_block` (stale line number) aborts the run. -/
def ccrLocE (apply : Bool) (st : CCRState) (src : SrcKey) (lineNo : Nat) :
    Option CCRState :=
  if apply then
    match (if src.1 then List.lookup src.2 st.mnemo
        else List.lookup src.2 st.objs) with
    | none => some st
    | some t =>
      match clean_commented_blockE t lineNo with
      | none => none
      | some block =>
        if block.isEmpty then some st
        else
          let r := remove_commented_lines t block
          let st2 := match r.1 with
            | some t2 =>
              if src.1 then
                { st with mnemo := (st.mnemo.map (fun d : Doc => if d.1 = src.2 then (d.1, t2) else d)) }
              else
                { st with objs := (st.objs.map (fun d : Doc => if d.1 = src.2 then (d.1, t2) else d)) }
            | none => st
          some { st2 with removed := st2.removed + r.2 }
  else some st

/-- `ccrRel` with the error path kept: a crash while processing any
recorded location of the orphan aborts before the file deletion. -/
def ccrRelE (apply : Bool) (locs : List (SrcKey × Nat)) (rel : Name)
    (st : CCRState) : Option CCRState :=
  match locs.foldl (fun acc e => acc.bind (fun s => ccrLocE apply s e.1 e.2))
      (some st) with
  | none => none
  | some st2 =>
    if rel ∈ st2.objs.map (·.1) ∧ apply then
      some { st2 with objs := (st2.objs.filter (fun d => ¬ d.1 = rel)), deleted := st2.deleted ++ [rel] }
    else some st2

/-- The tail of the run after the comment-orphans phase: walk the pure
orphans, then package the report. -/
def ccrFinish (apply : Bool) (co po : List Name) (st1 : CCRState) :
    CCRRun :=
  let st2 := po.foldl (fun st rel => ccrPure apply rel st) st1
  { mnemo := st2.mnemo, objs := st2.objs, deleted := st2.deleted, removedLines := st2.removed, reportFiles := co ++ po }

/-- `clean_commented_refs.main` for one cabinet with the error path
kept: `none` models the run aborting on an unhandled `IndexError`
(reachable only in apply mode — the dry run never calls
`clean_commented_block`). -/
def clean_commented_refs_runE (apply : Bool) (mnemoDocs objDocs : List Doc)
    (cab : Name) : Option CCRRun :=
  let fco := find_comment_orphans mnemoDocs objDocs cab
  let co := sortNames fco.commentOnly
  let po := sortNames fco.pureOrphans
  let st0 : CCRState := ⟨mnemoDocs, objDocs, 0, []⟩
  (co.foldl
      (fun ost rel => ost.bind (fun st => ccrRelE apply
        ((fco.orphanLocs.filter (fun e => e.1 = rel)).map
          (fun e => (e.2.1, e.2.2.1)))
        rel st))
      (some st0)).map (ccrFinish apply co po)

theorem ccrLocE_false (st : CCRState) (src : SrcKey) (n : Nat) :
    ccrLocE false st src n = some st := by
  simp [ccrLocE]

theorem ccrRelE_false (locs : List (SrcKey × Nat)) (rel : Name)
    (st : CCRState) : ccrRelE false locs rel st = some st := by
  unfold ccrRelE
  have hfold : locs.foldl
      (fun acc e => acc.bind (fun s => ccrLocE false s e.1 e.2))
      (some st) = some st := by
    induction locs generalizing st with
    | nil => rfl
    | cons l ls ih =>
      rw [List.foldl_cons]
      show ls.foldl _ ((some st).bind (fun s => ccrLocE false s l.1 l.2)) = _
      rw [Option.some_bind, ccrLocE_false]
      exact ih st
  rw [hfold]
  show (if rel ∈ st.objs.map (·.1) ∧ (false : Bool) = true then _ else _)
    = some st
  rw [if_neg (fun hand => by simpa using hand.2)]

theorem ccrE_foldRel_false (f : Name → List (SrcKey × Nat)) :
    ∀ (rels : List Name) (st : CCRState),
      rels.foldl
        (fun ost rel => ost.bind (fun st => ccrRelE false (f rel) rel st))
        (some st) = some st := by
  intro rels
  induction rels with
  | nil => intro st; rfl
  | cons r rs ih =>
    intro st
    rw [List.foldl_cons]
    show rs.foldl _ ((some st).bind (fun st => ccrRelE false (f r) r st)) = _
    rw [Option.some_bind, ccrRelE_false]
    exact ih st

/-- Once the running state has crashed, the rest of the location fold
stays crashed. -/
theorem ccrE_locFold_none (locs : List (SrcKey × Nat)) :
    locs.foldl (fun acc e => acc.bind (fun s => ccrLocE true s e.1 e.2))
      none = none := by
  induction locs with
  | nil => rfl
  | cons l ls ih =>
    rw [List.foldl_cons]
    show ls.foldl _ (Option.bind none _) = _
    rw [Option.none_bind]
    exact ih

/-- Once the running state has crashed, the rest of the orphan fold
stays crashed. -/
theorem ccrE_relFold_none (f : Name → List (SrcKey × Nat)) :
    ∀ rels : List Name,
      rels.foldl
        (fun ost rel => ost.bind (fun st => ccrRelE true (f rel) rel st))
        none = none := by
  intro rels
  induction rels with
  | nil => rfl
  | cons r rs ih =>
    rw [List.foldl_cons]
    show rs.foldl _ (Option.bind none _) = _
    rw [Option.none_bind]
    exact ih

end CabinetIsolation

namespace CabinetIsolation

theorem ccrLocE_keys (st st2 : CCRState) (src : SrcKey) (n : Nat)
    (h : ccrLocE true st src n = some st2) :
    st2.objs.map (·.1) = st.objs.map (·.1) ∧ st2.deleted = st.deleted := by
  unfold ccrLocE at h
  rw [if_pos rfl] at h
  rcases hsrc : (if src.1 then List.lookup src.2 st.mnemo
      else List.lookup src.2 st.objs) with _ | t
  · simp only [hsrc] at h
    cases Option.some.inj h
    exact ⟨rfl, rfl⟩
  · simp only [hsrc] at h
    rcases hcb : clean_commented_blockE t n with _ | block
    · simp only [hcb] at h
      cases h
    · simp only [hcb] at h
      by_cases hb : block.isEmpty = true
      · rw [if_pos hb] at h
        cases Option.some.inj h
        exact ⟨rfl, rfl⟩
      · rw [if_neg hb] at h
        rcases hr : (remove_commented_lines t block).1 with _ | t2
        · simp only [hr] at h
          cases Option.some.inj h
          exact ⟨rfl, rfl⟩
        · by_cases hm : src.1 = true
          · simp only [hr, hm, if_true] at h
            cases Option.some.inj h
            exact ⟨rfl, rfl⟩
          · simp only [hr, hm, Bool.false_eq_true, if_false] at h
            cases Option.some.inj h
            exact ⟨keys_map_update st.objs src.2 t2, rfl⟩

theorem ccrE_locFold_keys :
    ∀ (locs : List (SrcKey × Nat)) (st st2 : CCRState),
      locs.foldl (fun acc e => acc.bind (fun s => ccrLocE true s e.1 e.2))
          (some st) = some st2 →
      st2.objs.map (·.1) = st.objs.map (·.1) ∧ st2.deleted = st.deleted := by
  intro locs
  induction locs with
  | nil =>
    intro st st2 h
    cases Option.some.inj h
    exact ⟨rfl, rfl⟩
  | cons l ls ih =>
    intro st st2 h
    rw [List.foldl_cons] at h
    rcases hstep : ccrLocE true st l.1 l.2 with _ | stm
    · rw [show (some st).bind (fun s => ccrLocE true s l.1 l.2) = none from
        by rw [Option.some_bind, hstep]] at h
      rw [ccrE_locFold_none] at h
      cases h
    · rw [show (some st).bind (fun s => ccrLocE true s l.1 l.2) = some stm
        from by rw [Option.some_bind, hstep]] at h
      rcases ih stm st2 h with ⟨h1, h2⟩
      rcases ccrLocE_keys st stm l.1 l.2 hstep with ⟨g1, g2⟩
      exact ⟨h1.trans g1, h2.trans g2⟩

theorem ccrRelE_true (locs : List (SrcKey × Nat)) (rel : Name)
    (st st2 : CCRState) (hmem : rel ∈ st.objs.map (·.1))
    (h : ccrRelE true locs rel st = some st2) :
    st2.objs.map (·.1) = (st.objs.map (·.1)).filter (fun k => ¬ k = rel) ∧
      st2.deleted = st.deleted ++ [rel] := by
  unfold ccrRelE at h
  rcases hfold : locs.foldl
      (fun acc e => acc.bind (fun s => ccrLocE true s e.1 e.2))
      (some st) with _ | stm
  · rw [hfold] at h
    replace h : (none : Option CCRState) = some st2 := h
    cases h
  · rw [hfold] at h
    rcases ccrE_locFold_keys locs st stm hfold with ⟨hk, hd⟩
    have hmem2 : rel ∈ stm.objs.map (·.1) := hk ▸ hmem
    replace h : (if rel ∈ stm.objs.map (·.1) ∧ (true : Bool) = true then some { stm with objs := (stm.objs.filter (fun d => ¬ d.1 = rel)), deleted := stm.deleted ++ [rel] } else some stm) = some st2 := h
    rw [if_pos ⟨hmem2, rfl⟩] at h
    cases Option.some.inj h
    constructor
    · show (stm.objs.filter (fun d => ¬ d.1 = rel)).map (·.1) = _
      rw [keys_filter_ne, hk]
    · show stm.deleted ++ [rel] = _
      rw [hd]

theorem ccrE_relFold_true (f : Name → List (SrcKey × Nat)) :
    ∀ (rels : List Name) (st st2 : CCRState),
      rels.Nodup → (∀ r ∈ rels, r ∈ st.objs.map (·.1)) →
      rels.foldl
          (fun ost rel => ost.bind (fun st => ccrRelE true (f rel) rel st))
          (some st) = some st2 →
      st2.objs.map (·.1)
          = (st.objs.map (·.1)).filter (fun k => ¬ k ∈ rels) ∧
        st2.deleted = st.deleted ++ rels := by
  intro rels
  induction rels with
  | nil =>
    intro st st2 _ _ h
    cases Option.some.inj h
    simp
  | cons r rs ih =>
    intro st st2 hnd hall h
    rw [List.foldl_cons] at h
    rcases hstep : ccrRelE true (f r) r st with _ | str
    · rw [show (some st).bind (fun st => ccrRelE true (f r) r st) = none
        from by rw [Option.some_bind, hstep]] at h
      rw [ccrE_relFold_none] at h
      cases h
    · rw [show (some st).bind (fun st => ccrRelE true (f r) r st) = some str
        from by rw [Option.some_bind, hstep]] at h
      rcases ccrRelE_true (f r) r st str
        (hall r (List.mem_cons_self r rs)) hstep with ⟨g1, g2⟩
      have hall2 : ∀ r2 ∈ rs, r2 ∈ str.objs.map (·.1) := by
        intro r2 hr2
        rw [g1]
        refine List.mem_filter.mpr
          ⟨hall r2 (List.mem_cons_of_mem r hr2), ?_⟩
        have : ¬ r2 = r := by
          intro heq
          rw [heq] at hr2
          exact (List.nodup_cons.mp hnd).1 hr2
        simpa using this
      rcases ih str st2 (List.Nodup.of_cons hnd) hall2 h with ⟨h1, h2⟩
      constructor
      · rw [h1, g1, List.filter_filter]
        refine List.filter_congr ?_
        intro k _
        by_cases e1 : k = r <;> by_cases e2 : k ∈ rs <;> simp [e1, e2]
      · rw [h2, g2, List.append_assoc]
        rfl

end CabinetIsolation

namespace CabinetIsolation

theorem ccrFinish_false (co po : List Name) (st1 : CCRState) :
    ccrFinish false co po st1
      = { mnemo := st1.mnemo, objs := st1.objs, deleted := st1.deleted, removedLines := st1.removed, reportFiles := co ++ po } := by
  show ({ mnemo := (po.foldl (fun st rel => ccrPure false rel st) st1).mnemo, objs := _, deleted := _, removedLines := _, reportFiles := _ } : CCRRun) = _
  rw [ccr_foldPure_false]

/-- The dry run of the `clean_commented_refs` executor never crashes and
is a complete no-op on the documents; its report lists the sorted
comment orphans followed by the sorted pure orphans. -/
theorem ccrE_run_false (m o : List Doc) (cab : Name) :
    clean_commented_refs_runE false m o cab
      = some { mnemo := m, objs := o, deleted := [], removedLines := 0, reportFiles := sortNames (find_comment_orphans m o cab).commentOnly ++ sortNames (find_comment_orphans m o cab).pureOrphans } := by
  have hfold := ccrE_foldRel_false
    (fun rel => (((find_comment_orphans m o cab).orphanLocs.filter
      (fun e => e.1 = rel)).map (fun e => (e.2.1, e.2.2.1))))
    (sortNames (find_comment_orphans m o cab).commentOnly)
    (⟨m, o, 0, []⟩ : CCRState)
  show ((sortNames (find_comment_orphans m o cab).commentOnly).foldl
      (fun ost rel => ost.bind (fun st => ccrRelE false
        (((find_comment_orphans m o cab).orphanLocs.filter
          (fun e => e.1 = rel)).map (fun e => (e.2.1, e.2.2.1)))
        rel st))
      (some (⟨m, o, 0, []⟩ : CCRState))).map
      (ccrFinish false (sortNames (find_comment_orphans m o cab).commentOnly)
        (sortNames (find_comment_orphans m o cab).pureOrphans)) = _
  rw [hfold]
  show some (ccrFinish false
    (sortNames (find_comment_orphans m o cab).commentOnly)
    (sortNames (find_comment_orphans m o cab).pureOrphans)
    (⟨m, o, 0, []⟩ : CCRState)) = _
  rw [ccrFinish_false]

set_option maxHeartbeats 1000000 in
/-- When an apply-mode run of the `clean_commented_refs` executor
completes without crashing, it deletes exactly the reported files. -/
theorem ccrE_run_true_deleted (m o : List Doc) (cab : Name) (r : CCRRun)
    (h : clean_commented_refs_runE true m o cab = some r) :
    r.deleted = sortNames (find_comment_orphans m o cab).commentOnly
      ++ sortNames (find_comment_orphans m o cab).pureOrphans := by
  obtain ⟨hcoNd, hpoNd, hcoMem, hpoMem, hdisj⟩ := fco_orphan_props m o cab
  rcases hm1 : (sortNames (find_comment_orphans m o cab).commentOnly).foldl
      (fun ost rel => ost.bind (fun st => ccrRelE true
        (((find_comment_orphans m o cab).orphanLocs.filter
          (fun e => e.1 = rel)).map (fun e => (e.2.1, e.2.2.1)))
        rel st))
      (some (⟨m, o, 0, []⟩ : CCRState)) with _ | st1
  · have hnone : clean_commented_refs_runE true m o cab = none := by
      show ((sortNames (find_comment_orphans m o cab).commentOnly).foldl
        (fun ost rel => ost.bind (fun st => ccrRelE true
          (((find_comment_orphans m o cab).orphanLocs.filter
            (fun e => e.1 = rel)).map (fun e => (e.2.1, e.2.2.1)))
          rel st))
        (some (⟨m, o, 0, []⟩ : CCRState))).map
        (ccrFinish true
          (sortNames (find_comment_orphans m o cab).commentOnly)
          (sortNames (find_comment_orphans m o cab).pureOrphans)) = none
      rw [hm1]
      rfl
    rw [hnone] at h
    cases h
  · have hsome : clean_commented_refs_runE true m o cab
        = some (ccrFinish true
          (sortNames (find_comment_orphans m o cab).commentOnly)
          (sortNames (find_comment_orphans m o cab).pureOrphans) st1) := by
      show ((sortNames (find_comment_orphans m o cab).commentOnly).foldl
        (fun ost rel => ost.bind (fun st => ccrRelE true
          (((find_comment_orphans m o cab).orphanLocs.filter
            (fun e => e.1 = rel)).map (fun e => (e.2.1, e.2.2.1)))
          rel st))
        (some (⟨m, o, 0, []⟩ : CCRState))).map
        (ccrFinish true
          (sortNames (find_comment_orphans m o cab).commentOnly)
          (sortNames (find_comment_orphans m o cab).pureOrphans)) = _
      rw [hm1]
      rfl
    rw [hsome] at h
    cases Option.some.inj h
    have hcoNd2 : (sortNames
        (find_comment_orphans m o cab).commentOnly).Nodup :=
      sortNames_nodup hcoNd
    have hpoNd2 : (sortNames
        (find_comment_orphans m o cab).pureOrphans).Nodup :=
      sortNames_nodup hpoNd
    have hcoAll : ∀ r2 ∈ sortNames (find_comment_orphans m o
        cab).commentOnly,
        r2 ∈ ((⟨m, o, 0, []⟩ : CCRState)).objs.map (·.1) := by
      intro r2 hr2
      exact hcoMem r2 (mem_sortNames.mp hr2)
    rcases ccrE_relFold_true
      (fun rel => (((find_comment_orphans m o cab).orphanLocs.filter
        (fun e => e.1 = rel)).map (fun e => (e.2.1, e.2.2.1))))
      (sortNames (find_comment_orphans m o cab).commentOnly)
      (⟨m, o, 0, []⟩ : CCRState) st1 hcoNd2 hcoAll hm1 with ⟨hk1, hd1⟩
    have hpoAll : ∀ r2 ∈ sortNames (find_comment_orphans m o
        cab).pureOrphans, r2 ∈ st1.objs.map (·.1) := by
      intro r2 hr2
      rw [hk1]
      refine List.mem_filter.mpr ⟨hpoMem r2 (mem_sortNames.mp hr2), ?_⟩
      have : r2 ∉ sortNames (find_comment_orphans m o cab).commentOnly := by
        intro hrc
        exact hdisj r2 (mem_sortNames.mp hrc) (mem_sortNames.mp hr2)
      simpa using this
    rcases ccr_pureFold_true
      (sortNames (find_comment_orphans m o cab).pureOrphans) st1
      hpoNd2 hpoAll with ⟨hk2, hd2⟩
    show ((sortNames (find_comment_orphans m o cab).pureOrphans).foldl
      (fun st rel => ccrPure true rel st) st1).deleted = _
    rw [hd2, hd1]
    rfl

end CabinetIsolation

namespace CabinetIsolation

/-- C5 (amended): of the three pruning executors only two are gated,
and even for the gated `clean_commented_refs.main` the dry-run report
promises only what a *completed* apply run deletes.
(i) `cleanup_orphans.main` in dry-run mode deletes nothing and leaves
the document set unchanged, while reporting exactly the files a
delete-mode run removes.  (ii) `clean_commented_refs.main` in dry-run
mode never crashes, is a complete no-op on both document trees, removes
no lines, and reports the sorted orphan files.  (iii) An apply-mode run
that completes deletes exactly the reported files; but (iv) the
apply-mode run can abort with an unhandled `IndexError` on a stale line
number (a reachable input: an earlier block removal shortens the file a
later recorded location points into), so the dry-run report can list
deletions the program never performs.  `cleanup_classes.main` has no
dry-run flag at all and always writes its edits (see the
counterexample). -/
theorem c5_amended :
    (∀ (mnemoTexts : List (List Char)) (objDocs : List Doc) (cab : Name),
      (cleanup_orphans_run false mnemoTexts objDocs cab).objs = objDocs ∧
        (cleanup_orphans_run false mnemoTexts objDocs cab).deleted = [] ∧
        (cleanup_orphans_run false mnemoTexts objDocs cab).reportOrphans
          = (cleanup_orphans_run true mnemoTexts objDocs cab).deleted) ∧
    (∀ (mnemoDocs objDocs : List Doc) (cab : Name),
      clean_commented_refs_runE false mnemoDocs objDocs cab
        = some { mnemo := mnemoDocs, objs := objDocs, deleted := [], removedLines := 0, reportFiles := sortNames (find_comment_orphans mnemoDocs objDocs cab).commentOnly ++ sortNames (find_comment_orphans mnemoDocs objDocs cab).pureOrphans }) ∧
    (∀ (mnemoDocs objDocs : List Doc) (cab : Name) (r : CCRRun),
      clean_commented_refs_runE true mnemoDocs objDocs cab = some r →
        r.deleted
          = sortNames (find_comment_orphans mnemoDocs objDocs
              cab).commentOnly
            ++ sortNames (find_comment_orphans mnemoDocs objDocs
              cab).pureOrphans) ∧
    (∃ (objDocs : List Doc) (cab : Name) (r2 : CCRRun),
      clean_commented_refs_runE true [] objDocs cab = none ∧
        clean_commented_refs_runE false [] objDocs cab = some r2 ∧
        r2.reportFiles ≠ []) := by
  refine ⟨?_, ?_, ?_, ?_⟩
  · intro mnemoTexts objDocs cab
    exact co_dryrun mnemoTexts objDocs cab
  · intro mnemoDocs objDocs cab
    exact ccrE_run_false mnemoDocs objDocs cab
  · intro mnemoDocs objDocs cab r h
    exact ccrE_run_true_deleted mnemoDocs objDocs cab r h
  · refine ⟨[(strL "a.xml", strL "somecode\n// x objects/objects_C/b.xml\n// filler\n// y objects/objects_C/c.xml"), (strL "b.xml", strL ""), (strL "c.xml", strL "")], strL "C", ?_, ?_, ?_, ?_⟩
    · exact ⟨[], [(strL "a.xml", strL "somecode\n// x objects/objects_C/b.xml\n// filler\n// y objects/objects_C/c.xml"), (strL "b.xml", strL ""), (strL "c.xml", strL "")], [], 0, [strL "b.xml", strL "c.xml", strL "a.xml"]⟩
    · decide
    · decide
    · decide

/-- C5 witness: the completed-apply-run clause of `c5_amended` at a
concrete input — a single pure orphan, which the apply run deletes and
the report lists. -/
theorem c5_witness :
    clean_commented_refs_runE true [] [(strL "b.xml", strL "")] (strL "C")
        = some ⟨[], [], [strL "b.xml"], 0, [strL "b.xml"]⟩ ∧
      (⟨[], [], [strL "b.xml"], 0, [strL "b.xml"]⟩ : CCRRun).deleted
        = sortNames (find_comment_orphans [] [(strL "b.xml", strL "")]
            (strL "C")).commentOnly
          ++ sortNames (find_comment_orphans [] [(strL "b.xml", strL "")]
            (strL "C")).pureOrphans :=
  ⟨by decide,
    c5_amended.2.2.1 [] [(strL "b.xml", strL "")] (strL "C")
      (⟨[], [], [strL "b.xml"], 0, [strL "b.xml"]⟩ : CCRRun) (by decide)⟩

end CabinetIsolation
